import Mathlib

/-!
# CNC coolant nozzle controller

A shallow embedding of `CNC_Coolant_Control.c` (an Arduino sketch): the position counter of a
stepper-driven nozzle, moved by a rotary knob, by numbers typed on a keypad, and by replaying
lists of positions saved in EEPROM.

Conventions of the embedding.

* A C `int` is a Lean `Int`. Every value the sketch computes from keypad input fits in 16 bits
  (three digits, times `blockLimit` or `stepsPerTurn`), so no wrap-around is modelled; the
  encoder count is taken to fit as well.
* The EEPROM is a map from addresses to bytes: `EEPROM.write` keeps the low eight bits of the
  value, `EEPROM.read` returns a byte. The size of the part is not modelled.
* A `char` is a Lean `Char`; storing it in an `int` takes its code (`Char.toNat`).
* The drivers are inputs and outputs of the model. Inputs: the key presses still to come
  (`St.keys`, consumed by `keypad.waitForKey`), the samples of the knob button still to come
  (`St.rotary`), and per poll of `loop` the encoder reading, the limit switch pin and the result
  of `keypad.getKey`. Outputs are recorded as traces: the arguments of `stepper.move`
  (`St.moved`), the step numbers that `moveMotor` prints (`St.stepLog`), the `EEPROM.write`
  calls (`St.writes`) and the warnings printed on the serial line (`St.notes`).
* A call that blocks in `waitForKey`, or spins on the knob button, after the supplied inputs are
  used up ends in `Run.wait` with the state it is blocked in.
-/

namespace CNC

/-- User variables of the sketch (lines 19 to 26) that the modelled code reads. -/
structure Cfg where
  /-- The constant `clickLimit`: MAX amount of turns. -/
  clickLimit : Int
  /-- The constant `stepsPerTurn`: sensitivity of motor. -/
  stepsPerTurn : Int
  /-- The constant `blockLimit`: amount of steps in a saved list. -/
  blockLimit : Int
  /-- The flag `loadDelay`: optional delay between movements in lists. -/
  loadDelay : Bool
  /-- The flag `softLimit`: numbers above `clickLimit` are rejected. -/
  softLimit : Bool

/-- The constant `degreeLimit`. -/
def degreeLimit : Int := 90

/-- The constant `motorSpeed`. -/
def motorSpeed : Int := 2

/-- The constant `cycleSpeed`. -/
def cycleSpeed : Int := 7

/-- The user variables as the source sets them. `clickLimit = degreeLimit / 8.1818` is
converted to an integer by truncation; it is computed here as the truncated quotient of
`degreeLimit * 10000` by `81818`. -/
def userVariables : Cfg where
  clickLimit := (degreeLimit * 10000).tdiv 81818
  stepsPerTurn := 25
  blockLimit := 5
  loadDelay := false
  softLimit := false

/-- The character `NULL` (also `NO_KEY` of the keypad driver). -/
def NULL : Char := Char.ofNat 0

/-- The sixteen characters of `keymap`. -/
def keymap : List Char :=
  ['1', '4', '7', '*', '2', '5', '8', '0', '3', '6', '9', '#', 'A', 'B', 'C', 'D']

/-- The array `int numPressed[3]`. -/
structure Arr3 where
  a0 : Int
  a1 : Int
  a2 : Int
  deriving DecidableEq, Repr

/-- The assignment `numPressed[i] = v`, for an index inside the array. -/
def Arr3.set (a : Arr3) (i : Int) (v : Int) : Arr3 :=
  if i = 0 then { a with a0 := v }
  else if i = 1 then { a with a1 := v }
  else if i = 2 then { a with a2 := v }
  else a

/-- Warnings the sketch prints on the serial line. -/
inductive Note where
  /-- "Must input a number, try again." -/
  | mustInput
  /-- "Must be a number, try again." -/
  | mustBeNumber
  /-- "No save data on that key" -/
  | noSaveData
  /-- "Input is over the limit" -/
  | overLimit
  /-- "Numbers must be different and less than the soft limit." -/
  | cycleRejected
  /-- "Input was reset" -/
  | inputReset
  deriving DecidableEq, Repr

/-- The global variables of the sketch, the EEPROM, the driver inputs still to come and the
traces of the driver outputs. -/
structure St where
  knobPosition : Int
  directionGoing : Int
  totalTurn : Int
  countSteps : Int
  comingFromSave : Bool
  keyPressed : Char
  numPressed : Arr3
  passedInput : Int
  countkeyPressed : Int
  /-- Contents of the EEPROM, by address. -/
  eeprom : Int → Int
  /-- Period last given to `stepper.setPeriod`. -/
  period : Int
  /-- Level last written to the LED pin. -/
  led : Bool
  /-- Arguments of the calls of `stepper.move`, oldest first. -/
  moved : List Int
  /-- Step numbers printed by `moveMotor`, oldest first. -/
  stepLog : List Int
  /-- Address and byte of the calls of `EEPROM.write`, oldest first. -/
  writes : List (Int × Int)
  /-- Warnings printed, oldest first. -/
  notes : List Note
  /-- Key presses still to come. -/
  keys : List Char
  /-- Samples of `digitalRead(rotaryPin)` still to come. -/
  rotary : List Bool

/-- Outcome of a call: it returned in state `s`, or it is blocked in state `s` waiting for an
input that the supplied inputs do not contain. -/
inductive Run where
  | ok (s : St)
  | wait (s : St)

/-- Sequencing: continue with `f` when the first part returned. -/
def Run.bind (r : Run) (f : St → Run) : Run :=
  match r with
  | .ok s => f s
  | .wait s => .wait s

/-- The state a run ends in, returned or blocked. -/
def Run.state : Run → St
  | .ok s => s
  | .wait s => s

/-- State after `setup`: the initial values of the globals, `directionGoing = 1`, and the
homing moves of the startup sequence (`homing` rounds of `stepper.move(10)`). -/
def setup (eeprom : Int → Int) (keys : List Char) (rotary : List Bool) (homing : Nat) : St where
  knobPosition := -999
  directionGoing := 1
  totalTurn := 0
  countSteps := 0
  comingFromSave := false
  keyPressed := NULL
  numPressed := ⟨0, 0, 0⟩
  passedInput := 0
  countkeyPressed := 0
  eeprom := eeprom
  period := motorSpeed
  led := false
  moved := List.replicate homing 10
  stepLog := []
  writes := []
  notes := []
  keys := keys
  rotary := rotary

/-- The call `EEPROM.write(address, value)`: the value is converted to a byte. -/
def EEPROM.write (s : St) (address value : Int) : St :=
  { s with
    eeprom := fun a => if a = address then value % 256 else s.eeprom a
    writes := s.writes ++ [(address, value % 256)] }

/-- The call `EEPROM.read(address)`: a byte. -/
def EEPROM.read (s : St) (address : Int) : Int :=
  s.eeprom address % 256

/-- The call `keypad.waitForKey()` whose result is dropped. -/
def waitForKey (s : St) : Run :=
  match s.keys with
  | [] => .wait s
  | _ :: ks => .ok { s with keys := ks }

/-- The loop of `collectNumbers`, on the key presses still to come. -/
def collectKeys : List Char → St → Run
  | [], s => if s.countkeyPressed < 3 then .wait s else .ok s
  | k :: ks, s =>
    if s.countkeyPressed < 3 then
      let s := { s with keyPressed := k, keys := ks }
      if k = '#' then .ok s
      else if k = '*' then
        if s.countkeyPressed < 1 then
          collectKeys ks { s with notes := s.notes ++ [Note.mustInput] }
        else .ok s
      else if k = 'B' ∧ s.comingFromSave = true then .ok s
      else if k = 'A' ∨ k = 'B' ∨ k = 'C' ∨ k = 'D' then
        collectKeys ks { s with notes := s.notes ++ [Note.mustBeNumber], countkeyPressed := 0 }
      else
        collectKeys ks { s with
          numPressed := s.numPressed.set s.countkeyPressed k.toNat
          countkeyPressed := s.countkeyPressed + 1 }
    else .ok s

/-- The function `collectNumbers`. -/
def collectNumbers (s : St) : Run :=
  collectKeys s.keys s

/-- First loop of `convert`, one element: a character code becomes a digit. -/
def toDigit (x : Int) : Int :=
  if x ≠ 0 then x - 48 else x

/-- The function `convert`. -/
def convert (s : St) : St :=
  let n0 := toDigit s.numPressed.a0
  let n1 := toDigit s.numPressed.a1
  let n2 := toDigit s.numPressed.a2
  let p : Int := 0
  let p := if n0 = 0 then p else p + n0 * 100
  let p := if n1 = 0 then p else p + n1 * 10
  let p := if n2 = 0 then p else p + n2
  let p := if s.countkeyPressed = 1 then p.tdiv 100 else p
  let p := if s.countkeyPressed = 2 then p.tdiv 10 else p
  { s with passedInput := p, countkeyPressed := 0, numPressed := ⟨0, 0, 0⟩ }

/-- The function `moveMotor`. -/
def moveMotor (s : St) : St :=
  { s with
    moved := s.moved ++ [s.totalTurn]
    stepLog := s.stepLog ++ [s.countSteps]
    totalTurn := 0 }

/-- The function `loadStep`; `passedInput` is its parameter. -/
def loadStep (c : Cfg) (passedInput : Int) (s : St) : St :=
  if s.keyPressed = '#' then s
  else if passedInput ≤ c.clickLimit ∨ c.softLimit = false then
    moveMotor { s with
      totalTurn := c.stepsPerTurn * (s.countSteps - passedInput)
      countSteps := passedInput }
  else { s with notes := s.notes ++ [Note.overLimit] }

/-- The function `CWturn`. -/
def CWturn (c : Cfg) (s : St) : St :=
  moveMotor { s with
    totalTurn := c.stepsPerTurn
    countSteps := s.countSteps - 1
    directionGoing := 1 }

/-- The function `CCWturn`. -/
def CCWturn (c : Cfg) (s : St) : St :=
  moveMotor { s with
    totalTurn := c.stepsPerTurn * -1
    countSteps := s.countSteps + 1
    directionGoing := 0 }

/-- The operator `!` of C on an `int`. -/
def lnot (x : Int) : Int :=
  if x = 0 then 1 else 0

/-- The `while` loop of `saveMovements` with `n` rounds left
(`n = blockLimit - directionsSaved`). -/
def saveLoop : Nat → Int → St → Run
  | 0, _, s => .ok s
  | n + 1, saveLocation, s =>
    (if s.keyPressed ≠ '#' then
      (collectNumbers s).bind fun s =>
        if s.keyPressed ≠ 'B' then .ok (convert s)
        else .ok { s with passedInput := s.countSteps }
    else .ok s).bind fun s =>
    if s.keyPressed = '#' then
      saveLoop n (saveLocation + 1) (EEPROM.write s saveLocation 164)
    else
      saveLoop n (saveLocation + 1) (EEPROM.write s saveLocation s.passedInput)

/-- The function `saveMovements`. -/
def saveMovements (c : Cfg) (s : St) : Run :=
  (collectNumbers { s with comingFromSave := true }).bind fun s =>
  (if s.keyPressed ≠ '#' then
    let s := { convert s with countkeyPressed := 0 }
    saveLoop c.blockLimit.toNat (c.blockLimit * s.passedInput) s
  else .ok s).bind fun s =>
  .ok { s with countkeyPressed := 0, keyPressed := NULL, comingFromSave := false }

/-- The `for` loop of `loadMovements` with `n` rounds left
(`n = saveLocation + blockLimit - i`). -/
def loadLoop (c : Cfg) (saveLocation : Int) : Nat → Int → St → Run
  | 0, _, s => .ok s
  | n + 1, i, s =>
    if EEPROM.read s saveLocation = 164 then
      .ok { s with notes := s.notes ++ [Note.noSaveData] }
    else
      let temp := EEPROM.read s i
      if temp ≠ 164 then
        (if c.loadDelay = true then waitForKey (loadStep c temp s)
          else .ok (loadStep c temp s)).bind fun s =>
        loadLoop c saveLocation n (i + 1) s
      else loadLoop c saveLocation n (i + 1) s

/-- The function `loadMovements`. -/
def loadMovements (c : Cfg) (s : St) : Run :=
  (collectNumbers s).bind fun s =>
  let s := { convert s with countkeyPressed := 0 }
  let saveLocation := c.blockLimit * s.passedInput
  loadLoop c saveLocation c.blockLimit.toNat saveLocation s

/-- The `while (digitalRead(rotaryPin))` loop of `CycleMovement`, on the samples of the knob
button still to come. -/
def cycleLoop (c : Cfg) (first second : Int) : List Bool → Bool → St → Run
  | [], _, s => .wait s
  | pin :: rs, cycleDirection, s =>
    if pin = true then
      if cycleDirection = false then
        cycleLoop c first second rs (!cycleDirection) (loadStep c second { s with rotary := rs })
      else
        cycleLoop c first second rs (!cycleDirection) (loadStep c first { s with rotary := rs })
    else .ok { s with rotary := rs }

/-- The body of `CycleMovement` from the label `startCycle`. The `goto` is a recursive call;
`fuel` bounds the number of jumps. Every round that jumps has read a key, so a bound above the
number of key presses to come is never reached (`startCycle_fuel`). -/
def startCycle (c : Cfg) : Nat → St → Run
  | 0, s => .wait s
  | fuel + 1, s =>
    (collectNumbers s).bind fun s =>
    if s.keyPressed ≠ '#' then
      let s := { convert s with countkeyPressed := 0 }
      let first := s.passedInput
      (collectNumbers s).bind fun s =>
      if s.keyPressed ≠ '#' then
        let s := { convert s with countkeyPressed := 0 }
        let second := s.passedInput
        if first = second ∨ ((first > c.clickLimit ∨ second > c.clickLimit) ∧ c.softLimit = true) then
          startCycle c fuel { s with notes := s.notes ++ [Note.cycleRejected] }
        else
          let s := loadStep c first { s with period := motorSpeed }
          let s := { s with period := cycleSpeed }
          (cycleLoop c first second s.rotary false s).bind fun s =>
          .ok { s with period := motorSpeed }
      else .ok s
    else .ok s

/-- The function `CycleMovement`, with a bound on the jumps that is never reached. -/
def CycleMovement (c : Cfg) (s : St) : Run :=
  startCycle c (s.keys.length + 1) s

/-- The `switch` of `keypadInput`, on the value `pressed` that the parameter `keyPressed` of
`keypadInput` has when the `switch` is reached. (The parameter hides the global of that name,
which the functions called here read.) -/
def keySwitch (c : Cfg) (pressed : Char) (s : St) : Run :=
  if pressed = 'A' then saveMovements c s
  else if pressed = 'C' then loadMovements c s
  else if pressed = 'D' then CycleMovement c s
  else if pressed = '#' then
    .ok { s with notes := s.notes ++ [Note.inputReset], countkeyPressed := 0 }
  else if pressed = '*' then
    if s.countkeyPressed > 0 then
      let s := convert s
      .ok (loadStep c s.passedInput s)
    else .ok s
  else .ok s

/-- The function `keypadInput`; `key` is its parameter `keyPressed`. A letter pressed after
numbers resets the count and sets the parameter to `NULL` before the `switch`. -/
def keypadInput (c : Cfg) (key : Char) (s : St) : Run :=
  if key = 'A' ∨ key = 'B' ∨ key = 'C' ∨ key = 'D' ∨ key = '*' ∨ key = '#' then
    if s.countkeyPressed ≥ 1 ∧ key ≠ '#' ∧ key ≠ '*' then
      keySwitch c NULL { s with notes := s.notes ++ [Note.mustBeNumber], countkeyPressed := 0 }
    else keySwitch c key s
  else if s.countkeyPressed < 3 then
    .ok { s with
      numPressed := s.numPressed.set s.countkeyPressed key.toNat
      countkeyPressed := s.countkeyPressed + 1 }
  else .ok s

/-- Lines 411 to 431 of `loop`: the reaction to the knob, with the limit switch hit
(`limitSwitchPin` low) or not. -/
def knobTurn (c : Cfg) (newKnob : Int) (limitSwitchPin : Bool) (s : St) : St :=
  if limitSwitchPin = false then
    if s.directionGoing = 1 ∧ newKnob - s.knobPosition < 0 ∧ s.countSteps < c.clickLimit then
      let s := CCWturn c s
      { s with directionGoing := lnot s.directionGoing }
    else if s.directionGoing = 0 ∧ newKnob - s.knobPosition > 0 ∧ s.countSteps > 0 then
      let s := CWturn c s
      { s with directionGoing := lnot s.directionGoing }
    else s
  else if newKnob - s.knobPosition > 0 ∧ s.countSteps > 0 then
    if s.countSteps ≠ 0 then CWturn c s else s
  else if newKnob - s.knobPosition < 0 ∧ s.countSteps < c.clickLimit then
    if s.countSteps ≠ c.clickLimit then CCWturn c s else s
  else s

/-- Lines 399 to 435 of `loop`: everything before the keypad is polled. `knobRead` is the
value of `knob.read()`. -/
def manualPoll (c : Cfg) (knobRead : Int) (limitSwitchPin : Bool) (s : St) : St :=
  let s := { s with passedInput := 0 }
  let newKnob := knobRead.tdiv (-4)
  let s := { s with led := decide (s.countSteps = 0 ∨ s.countSteps ≥ c.clickLimit) }
  let s := knobTurn c newKnob limitSwitchPin s
  if newKnob ≠ s.knobPosition then { s with knobPosition := newKnob } else s

/-- The function `loop`: one polling cycle. `key` is the value of `keypad.getKey()`. -/
def loop (c : Cfg) (knobRead : Int) (limitSwitchPin : Bool) (key : Char) (s : St) : Run :=
  let s := manualPoll c knobRead limitSwitchPin s
  let s := { s with keyPressed := key }
  if key ≠ NULL then keypadInput c key s else .ok s

/-- One round of `loop` as the drivers present it: the encoder reading, the level of the
limit switch pin and the key that `keypad.getKey()` returns (`NULL` for none). -/
structure Poll where
  knobRead : Int
  limitSwitchPin : Bool
  key : Char

/-- Successive rounds of `loop`, one per element; a blocked round ends the run. -/
def polls (c : Cfg) : List Poll → St → Run
  | [], s => .ok s
  | p :: ps, s => (loop c p.knobRead p.limitSwitchPin p.key s).bind (polls c ps)

/-- A round in which the limit switch is released and no key is pressed. -/
def freeTurn (knobRead : Int) : Poll :=
  { knobRead := knobRead, limitSwitchPin := true, key := NULL }

/-- The knob deltas `newKnob - knobPosition` that successive rounds of `loop` see, from the
encoder readings and the knob position stored before the first of them. -/
def knobDeltas : Int → List Int → List Int
  | _, [] => []
  | knobPosition, r :: rs => (r.tdiv (-4) - knobPosition) :: knobDeltas (r.tdiv (-4)) rs

/-! ### Key presses that enter numbers -/

/-- The keypad character of the decimal digit `d`. -/
def digitKey (d : Nat) : Char :=
  Char.ofNat (48 + d)

/-- Base-10 value of a sequence of digits, most significant first. -/
def decimal (ds : List Nat) : Int :=
  ds.foldl (fun acc d => 10 * acc + (d : Int)) 0

/-- The array after the digit keys `ds` are stored in it from index `i` on, as
`collectNumbers` and `keypadInput` do. -/
def storeDigits : Arr3 → Int → List Nat → Arr3
  | a, _, [] => a
  | a, i, d :: ds => storeDigits (a.set i (digitKey d).toNat) (i + 1) ds

/-- An element of `numPressed` is empty or holds the code of a digit key. -/
def Code (x : Int) : Prop :=
  x = 0 ∨ (48 ≤ x ∧ x ≤ 57)

/-- Every element of the array is empty or holds the code of a digit key. -/
def Arr3.Codes (a : Arr3) : Prop :=
  Code a.a0 ∧ Code a.a1 ∧ Code a.a2

/-- One to three decimal digits. -/
def Digits (ds : List Nat) : Prop :=
  1 ≤ ds.length ∧ ds.length ≤ 3 ∧ ∀ d ∈ ds, d < 10

/-- The key presses that enter the number with digits `ds`: the digit keys, then `*` unless
three digits were typed (the third digit ends the collection). -/
def entry (ds : List Nat) : List Char :=
  ds.map digitKey ++ (if ds.length < 3 then ['*'] else [])

/-- The last key pressed when the number with digits `ds` is entered. -/
def lastKey (ds : List Nat) : Char :=
  (entry ds).getLastD NULL

/-- The state `s` after a number was collected and converted: `key` was pressed last, `value`
is the number, the pending digits are cleared and `rest` are the key presses still to come. -/
def entered (s : St) (key : Char) (value : Int) (rest : List Char) : St :=
  { s with
    keyPressed := key, passedInput := value, countkeyPressed := 0,
    numPressed := ⟨0, 0, 0⟩, keys := rest }

/-- A step given at a prompt of a save session: a number typed on the keypad, or the key `B`
for the current position. -/
inductive Entry where
  | number (ds : List Nat)
  | current

/-- The key presses of a step. -/
def Entry.keys : Entry → List Char
  | .number ds => entry ds
  | .current => ['B']

/-- The value of a step when the nozzle is at `position`. -/
def Entry.value (position : Int) : Entry → Int
  | .number ds => decimal ds
  | .current => position

/-- A typed step has one to three decimal digits. -/
def Entry.Valid : Entry → Prop
  | .number ds => Digits ds
  | .current => True

/-- The key presses of a list of steps. -/
def stepKeys : List Entry → List Char
  | [] => []
  | e :: es => e.keys ++ stepKeys es

/-- The key presses that end a list of steps: `#` when there are fewer than `n` steps, nothing
when all `n` prompts were answered. -/
def closing (steps : List Entry) (n : Nat) : List Char :=
  if steps.length < n then ['#'] else []

/-- The key presses of a save session after the key `A`: the number of the key, the steps, and
`#` when fewer than `blockLimit` steps are given. -/
def saveSession (c : Cfg) (key : List Nat) (steps : List Entry) : List Char :=
  entry key ++ (stepKeys steps ++ closing steps c.blockLimit.toNat)

/-- The bytes a save session of `n` slots writes for the steps given: the values as bytes, then
the value 164 in the slots left. -/
def blockBytes (position : Int) (steps : List Entry) (n : Nat) : List Int :=
  steps.map (fun e => e.value position % 256) ++ List.replicate (n - steps.length) 164

/-- The memory after the bytes `vs` are written at the addresses `a`, `a + 1`, ... -/
def storeBytes (mem : Int → Int) : Int → List Int → Int → Int
  | _, [] => mem
  | a, v :: vs => storeBytes (fun x => if x = a then v else mem x) (a + 1) vs

/-- The addresses `a`, `a + 1`, ... paired with the bytes `vs`. -/
def addressed : Int → List Int → List (Int × Int)
  | _, [] => []
  | a, v :: vs => (a, v) :: addressed (a + 1) vs

/-- The bytes that `EEPROM.read` returns at the `n` addresses `a`, `a + 1`, ... -/
def slots (mem : Int → Int) : Int → Nat → List Int
  | _, 0 => []
  | a, n + 1 => mem a % 256 :: slots mem (a + 1) n

/-- The keypad dialogue left the axis and the store alone: position, direction flag, knob
position, moves issued, step numbers printed, EEPROM contents and writes are those of `s`. -/
def Untouched (s t : St) : Prop :=
  t.countSteps = s.countSteps ∧ t.moved = s.moved ∧ t.stepLog = s.stepLog ∧
  t.eeprom = s.eeprom ∧ t.writes = s.writes ∧ t.directionGoing = s.directionGoing ∧
  t.knobPosition = s.knobPosition ∧ t.comingFromSave = s.comingFromSave

/-- What a run of the save loop from `s` to `t` did: it consumed the key presses down to `rest`,
wrote `bytes` from `loc` on, and left the axis alone. -/
def Saved (s t : St) (loc : Int) (bytes : List Int) (rest : List Char) : Prop :=
  t.keys = rest ∧ t.eeprom = storeBytes s.eeprom loc bytes ∧
  t.writes = s.writes ++ addressed loc bytes ∧
  t.countSteps = s.countSteps ∧ t.moved = s.moved ∧ t.stepLog = s.stepLog

/-- The invariant of the controller under the soft limit: the position and every step number
printed so far lie in `[0, clickLimit]`; the elements of `numPressed` are empty or codes of
digit keys; the key presses to come are keys of the keypad. -/
def Inv (c : Cfg) (s : St) : Prop :=
  (0 ≤ s.countSteps ∧ s.countSteps ≤ c.clickLimit) ∧
  (∀ x ∈ s.stepLog, 0 ≤ x ∧ x ≤ c.clickLimit) ∧
  s.numPressed.Codes ∧
  (∀ k ∈ s.keys, k ∈ keymap)

/-! ### Definitions taken from the specification, to compare the code with -/

/-- Specification: `clamp(x, lo, hi)`. -/
def clamp (x lo hi : Int) : Int :=
  max lo (min x hi)

/-- Specification: the unit step of one poll. A positive delta is a clockwise turn, which
lowers the position; a negative delta is a counter-clockwise turn, which raises it. -/
def unitTurn (delta : Int) : Int :=
  if delta > 0 then -1 else if delta < 0 then 1 else 0

/-- Specification: the accumulated position after a sequence of knob deltas, each step
individually clamped to `[0, stepLimit]`. -/
def accumulate (stepLimit : Int) (position : Int) (deltas : List Int) : Int :=
  deltas.foldl (fun p d => clamp (p + unitTurn d) 0 stepLimit) position

/-- Specification (4.4, load): for each target in turn an absolute move, followed by a wait
for a confirmation key when the step delay is enabled. -/
def replay (c : Cfg) : List Int → St → Run
  | [], s => .ok s
  | t :: ts, s =>
    (if c.loadDelay = true then waitForKey (loadStep c t s) else .ok (loadStep c t s)).bind
      (replay c ts)

/-- The state the source reaches from `setup` when the knob is turned one click
counter-clockwise and `500*` is typed on the keypad. -/
def afterDirectMove : St :=
  (polls userVariables
    [⟨0, true, NULL⟩, ⟨4, true, NULL⟩, ⟨4, true, '5'⟩, ⟨4, true, '0'⟩, ⟨4, true, '0'⟩,
      ⟨4, true, '*'⟩]
    (setup (fun _ => 255) [] [] 0)).state

/-- A store in which the slots 0 and 2 of the block of key 3 hold 10 and 20 and every other
byte is 164, and the key presses `3*` to come. -/
def sparseBlock : St :=
  setup (fun a => if a = 15 then 10 else if a = 17 then 20 else 164) ['3', '*'] [] 0

/-- A store as delivered, every byte 255, never written, and the key presses `7*` to come. -/
def freshStore : St :=
  setup (fun _ => 255) ['7', '*'] [] 0

/-- A store in which every byte is 164, and the key presses `7*` to come. -/
def blankStore : St :=
  setup (fun _ => 164) ['7', '*'] [] 0

/-- A save session on key 3 with the steps 10, the current position and 20, on a store as
delivered. -/
def threeSteps : St :=
  setup (fun _ => 255) ['3', '*', '1', '0', '*', 'B', '2', '0', '*', '#'] [] 0

/-- A save session on key 3 with the steps 10 and 20 followed by a load session on key 3, on a
store as delivered. -/
def saveThenLoad : St :=
  setup (fun _ => 255) ['3', '*', '1', '0', '*', '2', '0', '*', '#', '3', '*'] [] 0

/-- A save session on key 3 with the single step 300 followed by a load session on key 3. -/
def saveLargeStep : St :=
  setup (fun _ => 255) ['3', '*', '3', '0', '0', '#', '3', '*'] [] 0

/-- A save session on key 3 with the steps 164 and 20 followed by a load session on key 3. -/
def saveSentinelStep : St :=
  setup (fun _ => 255) ['3', '*', '1', '6', '4', '2', '0', '*', '#', '3', '*'] [] 0

/-- Polls under the soft limit: a counter-clockwise click, the direct move `5*`, the direct
move `50*`, and a load of key 7. -/
def softLimitPolls : List Poll :=
  [⟨0, true, NULL⟩, ⟨4, true, NULL⟩, ⟨4, true, '5'⟩, ⟨4, true, '*'⟩, ⟨4, true, '5'⟩,
    ⟨4, true, '0'⟩, ⟨4, true, '*'⟩, ⟨4, false, 'C'⟩]

/-- Specification: the targets `a`, `b`, `a`, `b`, ... of `n` alternating moves. -/
def alternation (a b : Int) : Nat → List Int
  | 0 => []
  | n + 1 => a :: alternation b a n

/-- A cycle session on the store as delivered in which 10 and 10 are entered. -/
def cycleSame : St :=
  setup (fun _ => 255) ['1', '0', '*', '1', '0', '*'] [true, true, false] 0

/-- A cycle session on the store as delivered in which 10 and 20 are entered; the knob button
is sampled released twice, then pressed. -/
def cycleTenTwenty : St :=
  setup (fun _ => 255) ['1', '0', '*', '2', '0', '*'] [true, true, false] 0

/-- A cycle session in which `#` is pressed at the first prompt. -/
def cycleCancelled : St :=
  setup (fun _ => 255) ['#'] [true, false] 0

/-- A cycle session in which 5 is entered and `#` is pressed at the second prompt. -/
def cycleCancelledLate : St :=
  setup (fun _ => 255) ['5', '*', '#'] [true, false] 0

/-- Whether the call returned. -/
def Run.returned : Run → Bool
  | .ok _ => true
  | .wait _ => false

/-- A save session in which 1 is typed and then `#` at the key prompt. -/
def saveCancelled : St :=
  setup (fun _ => 255) ['1', '#'] [] 0

/-- A load session in which 1, 2 are typed and then `#` at the key prompt, on a store as
delivered. -/
def loadCancelled : St :=
  setup (fun _ => 255) ['1', '2', '#'] [] 0

/-- The main menu on a store as delivered; the key presses `1`, `#` come once a session has
started. -/
def digitThenCancel : St :=
  setup (fun _ => 255) ['1', '#'] [] 0

/-- Rounds of `loop` in which `D` is pressed (a cycle session starts and reads the key
presses to come), then `5`, then `*`. -/
def cycleThenMove : List Poll :=
  [⟨0, true, 'D'⟩, ⟨0, true, '5'⟩, ⟨0, true, '*'⟩]

/-- The state after `setup` with the limit switch still hit, as the startup sequence leaves
it. -/
def homed : St :=
  setup (fun _ => 255) [] [] 3

/-- The size of the EEPROM that the comment on `blockLimit` gives. -/
def eepromSize : Int := 1024

/-- A save session on key 205 closed with `#` at the first step. -/
def saveKey205 : St :=
  setup (fun _ => 255) ['2', '0', '5', '#'] [] 0

/-- A save session on key 999 with the step 1. -/
def saveKey999 : St :=
  setup (fun _ => 255) ['9', '9', '9', '1', '*', '#'] [] 0

/-- The motor steps issued so far plus the steps that the position stands for: the quantity
that no move changes. -/
def ledger (c : Cfg) (s : St) : Int :=
  s.moved.sum + c.stepsPerTurn * s.countSteps

/-- A save session on key 3 with the steps 300, the current position and 420, followed by a
load session on key 3. -/
def saveWideSteps : St :=
  setup (fun _ => 255)
    ['3', '*', '3', '0', '0', 'B', '4', '2', '0', '#', '3', '*'] [] 0

/-- The letter keys that `collectNumbers` answers with "Must be a number, try again.": `A`,
`C`, `D`, and `B` outside a save session. -/
def Resets (save : Bool) (k : Char) : Prop :=
  k = 'A' ∨ k = 'C' ∨ k = 'D' ∨ (k = 'B' ∧ save = false)

/-- The key presses of attempts given up: per attempt its digits, then a letter. -/
def abandoned : List (List Nat × Char) → List Char
  | [] => []
  | (ds, k) :: more => ds.map digitKey ++ k :: abandoned more

/-- Keys pressed one after the other in the main menu: what `loop` does with each key that
`keypad.getKey()` returns. -/
def pressKeys (c : Cfg) : List Char → St → Run
  | [], s => .ok s
  | k :: ks, s => (keypadInput c k { s with keyPressed := k }).bind (pressKeys c ks)

/-- The state after the digit key `d` was pressed in the main menu with fewer than three
digits pending. -/
def pressDigit (d : Nat) (s : St) : St :=
  { s with
    keyPressed := digitKey d,
    numPressed := s.numPressed.set s.countkeyPressed (digitKey d).toNat,
    countkeyPressed := s.countkeyPressed + 1 }

/-- A save session on key 3 in which the first step is answered with `1`, `B` and the second
with `2`, `*`. -/
def saveDigitThenCurrent : St :=
  setup (fun _ => 255) ['3', '*', '1', 'B', '2', '*', '#'] [] 0

/-- A save session in which the key prompt is answered with `1`, `B` and the first step with
`7`, `*`. -/
def saveKeyThenCurrent : St :=
  setup (fun _ => 255) ['1', 'B', '7', '*', '#'] [] 0

/-- A collection in which `1`, `2`, `A` is typed and then `5`, `*`. -/
def retyped : St :=
  setup (fun _ => 255) ['1', '2', 'A', '5', '*'] [] 0

/-! # Properties -/

/-! ## Manual turning -/

theorem moveMotor_countSteps (s : St) : (moveMotor s).countSteps = s.countSteps := rfl

theorem CWturn_countSteps (c : Cfg) (s : St) : (CWturn c s).countSteps = s.countSteps - 1 := rfl

theorem CCWturn_countSteps (c : Cfg) (s : St) : (CCWturn c s).countSteps = s.countSteps + 1 := rfl

/-- Position after the knob reaction with the limit switch hit. -/
theorem knobTurn_hit_countSteps (c : Cfg) (newKnob : Int) (s : St) :
    (knobTurn c newKnob false s).countSteps =
      if s.directionGoing = 1 ∧ newKnob - s.knobPosition < 0 ∧ s.countSteps < c.clickLimit then
        s.countSteps + 1
      else if s.directionGoing = 0 ∧ newKnob - s.knobPosition > 0 ∧ s.countSteps > 0 then
        s.countSteps - 1
      else s.countSteps := by
  unfold knobTurn
  simp only [if_true]
  split_ifs <;> simp [CWturn_countSteps, CCWturn_countSteps]

/-- Position after the knob reaction with the limit switch released. -/
theorem knobTurn_free_countSteps (c : Cfg) (newKnob : Int) (s : St) :
    (knobTurn c newKnob true s).countSteps =
      if newKnob - s.knobPosition > 0 ∧ s.countSteps > 0 then s.countSteps - 1
      else if newKnob - s.knobPosition < 0 ∧ s.countSteps < c.clickLimit then s.countSteps + 1
      else s.countSteps := by
  unfold knobTurn
  simp only [Bool.true_eq_false, if_false]
  split_ifs <;> first | rfl | omega

theorem manualPoll_countSteps (c : Cfg) (knobRead : Int) (pin : Bool) (s : St) :
    (manualPoll c knobRead pin s).countSteps =
      (knobTurn c (knobRead.tdiv (-4)) pin s).countSteps := by
  unfold manualPoll
  simp only
  split_ifs <;> cases pin <;> simp [knobTurn] <;> split_ifs <;> rfl

theorem knobTurn_knobPosition (c : Cfg) (newKnob : Int) (pin : Bool) (s : St) :
    (knobTurn c newKnob pin s).knobPosition = s.knobPosition := by
  unfold knobTurn
  split_ifs <;> rfl

theorem manualPoll_knobPosition (c : Cfg) (knobRead : Int) (pin : Bool) (s : St) :
    (manualPoll c knobRead pin s).knobPosition = knobRead.tdiv (-4) := by
  unfold manualPoll
  simp only [knobTurn_knobPosition]
  split_ifs with h
  · rfl
  · simp only [knobTurn_knobPosition]
    exact (not_not.mp h).symm

/-- C1, refuted as stated. In the state reached from `setup` by one counter-clockwise click
and the direct move `500*`, the last direction is counter-clockwise and the position is 500.
With the limit switch hit, a clockwise turn of the knob (opposite to the last direction) takes
the position to 499, which is outside `[0, clickLimit]`: the poll is not a no-op although the
result does not stay within the bounds. -/
theorem limit_poll_leaves_range_counterexample :
    afterDirectMove.countSteps = 500 ∧ afterDirectMove.directionGoing = 0 ∧
    (0 : Int).tdiv (-4) - afterDirectMove.knobPosition > 0 ∧
    ¬ (0 ≤ afterDirectMove.countSteps - 1 ∧
        afterDirectMove.countSteps - 1 ≤ userVariables.clickLimit) ∧
    (manualPoll userVariables 0 false afterDirectMove).countSteps = 499 := by
  decide

/-- C1, amended. With the limit switch hit, one poll leaves the position unchanged when the
knob is turned in the direction of `directionGoing`; it raises the position by one when the
last direction is clockwise, the knob is turned counter-clockwise and the position is below
`clickLimit`; it lowers the position by one when the last direction is counter-clockwise, the
knob is turned clockwise and the position is above 0; in every other case the position is
unchanged. -/
theorem limit_poll_position (c : Cfg) (knobRead : Int) (s : St) :
    ((s.directionGoing = 1 ∧ knobRead.tdiv (-4) - s.knobPosition > 0) ∨
        (s.directionGoing = 0 ∧ knobRead.tdiv (-4) - s.knobPosition < 0) →
      (manualPoll c knobRead false s).countSteps = s.countSteps) ∧
    (s.directionGoing = 1 ∧ knobRead.tdiv (-4) - s.knobPosition < 0 ∧
        s.countSteps < c.clickLimit →
      (manualPoll c knobRead false s).countSteps = s.countSteps + 1) ∧
    (s.directionGoing = 0 ∧ knobRead.tdiv (-4) - s.knobPosition > 0 ∧ 0 < s.countSteps →
      (manualPoll c knobRead false s).countSteps = s.countSteps - 1) ∧
    (¬ (s.directionGoing = 1 ∧ knobRead.tdiv (-4) - s.knobPosition < 0 ∧
          s.countSteps < c.clickLimit) ∧
        ¬ (s.directionGoing = 0 ∧ knobRead.tdiv (-4) - s.knobPosition > 0 ∧ 0 < s.countSteps) →
      (manualPoll c knobRead false s).countSteps = s.countSteps) := by
  rw [manualPoll_countSteps, knobTurn_hit_countSteps]
  refine ⟨?_, ?_, ?_, ?_⟩
  · intro h
    split_ifs <;> omega
  · intro h
    rw [if_pos h]
  · intro h
    split_ifs <;> omega
  · intro h
    split_ifs <;> first | rfl | omega

theorem loop_no_key (c : Cfg) (knobRead : Int) (pin : Bool) (s : St) :
    loop c knobRead pin NULL s = .ok { manualPoll c knobRead pin s with keyPressed := NULL } := by
  simp [loop]

/-- One free poll agrees with one clamped step of the specification, inside the range. -/
theorem free_poll_clamp (c : Cfg) (knobRead : Int) (s : St)
    (h0 : 0 ≤ s.countSteps) (hL : s.countSteps ≤ c.clickLimit) :
    (manualPoll c knobRead true s).countSteps =
      clamp (s.countSteps + unitTurn (knobRead.tdiv (-4) - s.knobPosition)) 0 c.clickLimit := by
  rw [manualPoll_countSteps, knobTurn_free_countSteps]
  unfold clamp unitTurn
  split_ifs <;> omega

theorem clamp_range (x limit : Int) (h : 0 ≤ limit) :
    0 ≤ clamp x 0 limit ∧ clamp x 0 limit ≤ limit := by
  unfold clamp
  omega

theorem free_polls_run (c : Cfg) (reads : List Int) :
    ∀ s : St, 0 ≤ s.countSteps → s.countSteps ≤ c.clickLimit →
      ∃ t, polls c (reads.map freeTurn) s = .ok t ∧
        t.countSteps = accumulate c.clickLimit s.countSteps (knobDeltas s.knobPosition reads) ∧
        0 ≤ t.countSteps ∧ t.countSteps ≤ c.clickLimit := by
  induction reads with
  | nil =>
    intro s h0 hL
    exact ⟨s, rfl, rfl, h0, hL⟩
  | cons r rs ih =>
    intro s h0 hL
    have hstep := free_poll_clamp c r s h0 hL
    have hrange := clamp_range (s.countSteps + unitTurn (r.tdiv (-4) - s.knobPosition))
      c.clickLimit (le_trans h0 hL)
    obtain ⟨t, ht, hacc, hb⟩ :=
      ih { manualPoll c r true s with keyPressed := NULL }
        (by show 0 ≤ (manualPoll c r true s).countSteps; rw [hstep]; exact hrange.1)
        (by show (manualPoll c r true s).countSteps ≤ c.clickLimit; rw [hstep]; exact hrange.2)
    refine ⟨t, ?_, ?_, hb⟩
    · simp only [List.map_cons, polls, freeTurn, loop_no_key, Run.bind]
      exact ht
    · rw [hacc]
      show accumulate c.clickLimit (manualPoll c r true s).countSteps
          (knobDeltas (manualPoll c r true s).knobPosition rs) = _
      rw [hstep, manualPoll_knobPosition]
      rfl

/-- C2. With the limit switch released and no key pressed, from a position in
`[0, clickLimit]`: every poll changes the position by one unit at most, whatever the size of
the delta (minus one for a clockwise delta above 0, plus one for a counter-clockwise delta
below `clickLimit`, nothing otherwise); every sequence of polls returns, the position it ends
in is the accumulation of the turns, each step clamped to `[0, clickLimit]`, and it lies in
`[0, clickLimit]` (so it does after every prefix of the sequence). -/
theorem free_polls_accumulate (c : Cfg) (s : St) (reads : List Int)
    (h0 : 0 ≤ s.countSteps) (hL : s.countSteps ≤ c.clickLimit) :
    (∀ (t : St) (r : Int), (manualPoll c r true t).countSteps =
        if r.tdiv (-4) - t.knobPosition > 0 ∧ t.countSteps > 0 then t.countSteps - 1
        else if r.tdiv (-4) - t.knobPosition < 0 ∧ t.countSteps < c.clickLimit then
          t.countSteps + 1
        else t.countSteps) ∧
    ∃ t, polls c (reads.map freeTurn) s = .ok t ∧
      t.countSteps = accumulate c.clickLimit s.countSteps (knobDeltas s.knobPosition reads) ∧
      0 ≤ t.countSteps ∧ t.countSteps ≤ c.clickLimit :=
  ⟨fun t r => by rw [manualPoll_countSteps, knobTurn_free_countSteps],
    free_polls_run c reads s h0 hL⟩

/-- Witness of C2: from `setup`, the encoder readings 0, 4, 8, 8, 4 (deltas 999, -1, -1, 0, 1)
leave the position at 1. -/
theorem free_polls_accumulate_witness :
    ∃ t, polls userVariables ([0, 4, 8, 8, 4].map freeTurn) (setup (fun _ => 255) [] [] 0)
        = .ok t ∧ t.countSteps = 1 := by
  obtain ⟨t, ht, hacc, _⟩ :=
    (free_polls_accumulate userVariables (setup (fun _ => 255) [] [] 0) [0, 4, 8, 8, 4]
      (by decide) (by decide)).2
  exact ⟨t, ht, by rw [hacc]; decide⟩

/-! ## Absolute moves -/

/-- C4, refuted as stated. With `softLimit` off, `loadStep(500)` called while the last key
pressed is `#` leaves the position at 0. -/
theorem loadStep_after_cancel_counterexample :
    userVariables.softLimit = false ∧
    (loadStep userVariables 500 { setup (fun _ => 255) [] [] 0 with keyPressed := '#' }).countSteps
      = 0 := by
  decide

/-- C4, amended. With `softLimit` off, `loadStep(target)` sets the position to `target`,
whatever the target and `clickLimit`, in every state in which the last key pressed is not `#`;
when the last key pressed is `#` it changes nothing. -/
theorem loadStep_sets_position (c : Cfg) (target : Int) (s : St)
    (hsoft : c.softLimit = false) :
    (s.keyPressed ≠ '#' → (loadStep c target s).countSteps = target) ∧
    (s.keyPressed = '#' → loadStep c target s = s) := by
  constructor
  · intro hkey
    simp [loadStep, hsoft, hkey, moveMotor]
  · intro hkey
    simp [loadStep, hkey]

/-- Witness of C4: target 500 with `clickLimit = 11`. -/
theorem loadStep_sets_position_witness :
    userVariables.clickLimit = 11 ∧
    (loadStep userVariables 500 (setup (fun _ => 255) [] [] 0)).countSteps = 500 :=
  ⟨by decide, (loadStep_sets_position userVariables 500 (setup (fun _ => 255) [] [] 0)
    (by decide)).1 (by decide)⟩

/-- C5. With `softLimit` on, `loadStep` with a target above `clickLimit` leaves the position
unchanged, calls `stepper.move` not at all, and changes nothing but the warning printed. -/
theorem loadStep_rejects_over_limit (c : Cfg) (target : Int) (s : St)
    (hsoft : c.softLimit = true) (hover : c.clickLimit < target) :
    (loadStep c target s).countSteps = s.countSteps ∧
    (loadStep c target s).moved = s.moved ∧
    (loadStep c target s = s ∨
      loadStep c target s = { s with notes := s.notes ++ [Note.overLimit] }) := by
  unfold loadStep
  by_cases hk : s.keyPressed = '#'
  · simp [hk]
  · have hnot : ¬ (target ≤ c.clickLimit ∨ c.softLimit = false) := by
      rw [hsoft]; simp; exact hover
    simp [hk, hnot]

/-- Witness of C5: target 12 with `clickLimit = 11`. -/
theorem loadStep_rejects_over_limit_witness :
    (loadStep { userVariables with softLimit := true } 12
      (setup (fun _ => 255) [] [] 0)).countSteps = 0 :=
  (loadStep_rejects_over_limit { userVariables with softLimit := true } 12
    (setup (fun _ => 255) [] [] 0) (by decide) (by decide)).1

/-! ## Numeric input -/

theorem digitKey_toNat (d : Nat) (h : d < 10) : ((digitKey d).toNat : Int) = 48 + d := by
  interval_cases d <;> rfl

theorem toDigit_code (x : Int) (h : Code x) : 0 ≤ toDigit x ∧ toDigit x ≤ 9 := by
  unfold toDigit
  rcases h with h | h
  · simp [h]
  · split_ifs <;> omega

theorem toDigit_key (d : Nat) (h : d < 10) : toDigit ((digitKey d).toNat) = d := by
  rw [digitKey_toNat d h]
  unfold toDigit
  split_ifs <;> omega

theorem convert_passedInput (s : St) :
    (convert s).passedInput =
      if s.countkeyPressed = 1 then
        (100 * toDigit s.numPressed.a0 + 10 * toDigit s.numPressed.a1
          + toDigit s.numPressed.a2).tdiv 100
      else if s.countkeyPressed = 2 then
        (100 * toDigit s.numPressed.a0 + 10 * toDigit s.numPressed.a1
          + toDigit s.numPressed.a2).tdiv 10
      else 100 * toDigit s.numPressed.a0 + 10 * toDigit s.numPressed.a1
          + toDigit s.numPressed.a2 := by
  have key : (if toDigit s.numPressed.a2 = 0 then
        (if toDigit s.numPressed.a1 = 0 then
          (if toDigit s.numPressed.a0 = 0 then (0 : Int) else 0 + toDigit s.numPressed.a0 * 100)
        else (if toDigit s.numPressed.a0 = 0 then (0 : Int)
          else 0 + toDigit s.numPressed.a0 * 100) + toDigit s.numPressed.a1 * 10)
      else (if toDigit s.numPressed.a1 = 0 then
          (if toDigit s.numPressed.a0 = 0 then (0 : Int) else 0 + toDigit s.numPressed.a0 * 100)
        else (if toDigit s.numPressed.a0 = 0 then (0 : Int)
          else 0 + toDigit s.numPressed.a0 * 100) + toDigit s.numPressed.a1 * 10)
        + toDigit s.numPressed.a2) =
      100 * toDigit s.numPressed.a0 + 10 * toDigit s.numPressed.a1
          + toDigit s.numPressed.a2 := by
    split_ifs <;> omega
  unfold convert
  simp only [key]
  by_cases h1 : s.countkeyPressed = 1
  · have h2 : ¬ s.countkeyPressed = 2 := by omega
    simp [h1]
  · by_cases h2 : s.countkeyPressed = 2
    · simp [h2]
    · simp [h1, h2]

theorem convert_stored (s : St) (a : Arr3) (ds : List Nat) (ha : a.Codes)
    (h1 : 1 ≤ ds.length) (h3 : ds.length ≤ 3) (hd : ∀ d ∈ ds, d < 10)
    (hnum : s.numPressed = storeDigits a 0 ds) (hcount : s.countkeyPressed = ds.length) :
    (convert s).passedInput = decimal ds := by
  obtain ⟨c0, c1, c2⟩ := ha
  have b1 := toDigit_code _ c1
  have b2 := toDigit_code _ c2
  rw [convert_passedInput, hnum, hcount]
  match ds, h1, h3, hd with
  | [d0], _, _, hd =>
    have e0 := toDigit_key d0 (hd d0 (by simp))
    have hd0 : d0 < 10 := hd d0 (by simp)
    simp only [storeDigits, Arr3.set, e0, decimal, List.foldl]
    simp
    rw [Int.tdiv_eq_ediv (by omega) (by omega)]
    omega
  | [d0, d1], _, _, hd =>
    have e0 := toDigit_key d0 (hd d0 (by simp))
    have e1 := toDigit_key d1 (hd d1 (by simp))
    have hd1 : d1 < 10 := hd d1 (by simp)
    simp only [storeDigits, Arr3.set, e0, e1, decimal, List.foldl]
    simp
    rw [Int.tdiv_eq_ediv (by omega) (by omega)]
    omega
  | [d0, d1, d2], _, _, hd =>
    have e0 := toDigit_key d0 (hd d0 (by simp))
    have e1 := toDigit_key d1 (hd d1 (by simp))
    have e2 := toDigit_key d2 (hd d2 (by simp))
    simp only [storeDigits, Arr3.set, e0, e1, e2, decimal, List.foldl]
    simp
    omega
  | [], h1, _, _ => simp at h1
  | _ :: _ :: _ :: _ :: _, _, h3, _ => simp at h3

theorem digitKey_ne (d : Nat) (h : d < 10) :
    digitKey d ≠ '#' ∧ digitKey d ≠ '*' ∧ digitKey d ≠ 'A' ∧ digitKey d ≠ 'B' ∧
      digitKey d ≠ 'C' ∧ digitKey d ≠ 'D' := by
  interval_cases d <;> decide

theorem collectKeys_digit (d : Nat) (h : d < 10) (ks : List Char) (s : St)
    (hc : s.countkeyPressed < 3) :
    collectKeys (digitKey d :: ks) s =
      collectKeys ks { s with
        keyPressed := digitKey d, keys := ks,
        numPressed := s.numPressed.set s.countkeyPressed (digitKey d).toNat,
        countkeyPressed := s.countkeyPressed + 1 } := by
  obtain ⟨n1, n2, n3, n4, n5, n6⟩ := digitKey_ne d h
  rw [collectKeys]
  simp [hc, n1, n2, n3, n4, n5, n6]

theorem collectKeys_star (ks : List Char) (s : St)
    (h1 : 1 ≤ s.countkeyPressed) (hc : s.countkeyPressed < 3) :
    collectKeys ('*' :: ks) s = .ok { s with keyPressed := '*', keys := ks } := by
  rw [collectKeys]
  have : ¬ s.countkeyPressed < 1 := by omega
  simp [hc, this]

theorem collectKeys_full (ks : List Char) (s : St) (hc : ¬ s.countkeyPressed < 3) :
    collectKeys ks s = .ok s := by
  cases ks <;> simp [collectKeys, hc]

theorem collect_entry (ds : List Nat) (hds : Digits ds) (rest : List Char) (s : St)
    (hc : s.countkeyPressed = 0) (hk : s.keys = entry ds ++ rest) :
    collectNumbers s = .ok { s with
      keyPressed := lastKey ds, keys := rest,
      numPressed := storeDigits s.numPressed 0 ds,
      countkeyPressed := ds.length } := by
  obtain ⟨h1, h3, hd⟩ := hds
  unfold collectNumbers
  rw [hk]
  match ds, h1, h3, hd with
  | [d0], _, _, hd =>
    have hd0 : d0 < 10 := hd d0 (by simp)
    show collectKeys (digitKey d0 :: '*' :: rest) s = _
    rw [collectKeys_digit d0 hd0 _ _ (by omega), collectKeys_star _ _ (by simp [hc]) (by simp [hc])]
    simp [lastKey, entry, storeDigits, hc]
  | [d0, d1], _, _, hd =>
    have hd0 : d0 < 10 := hd d0 (by simp)
    have hd1 : d1 < 10 := hd d1 (by simp)
    show collectKeys (digitKey d0 :: digitKey d1 :: '*' :: rest) s = _
    rw [collectKeys_digit d0 hd0 _ _ (by omega), collectKeys_digit d1 hd1 _ _ (by simp [hc]),
      collectKeys_star _ _ (by simp [hc]) (by simp [hc])]
    simp [lastKey, entry, storeDigits, hc]
  | [d0, d1, d2], _, _, hd =>
    have hd0 : d0 < 10 := hd d0 (by simp)
    have hd1 : d1 < 10 := hd d1 (by simp)
    have hd2 : d2 < 10 := hd d2 (by simp)
    show collectKeys (digitKey d0 :: digitKey d1 :: digitKey d2 :: rest) s = _
    rw [collectKeys_digit d0 hd0 _ _ (by omega), collectKeys_digit d1 hd1 _ _ (by simp [hc]),
      collectKeys_digit d2 hd2 _ _ (by simp [hc]), collectKeys_full _ _ (by simp [hc])]
    simp [lastKey, entry, storeDigits, hc]
  | [], h1, _, _ => simp at h1
  | _ :: _ :: _ :: _ :: _, _, h3, _ => simp at h3

/-- C6. When `numPressed` holds the codes of one, two or three digit keys from index 0 on, the
other elements are empty and `countkeyPressed` is the number of digits, `convert` sets
`passedInput` to the base-10 value of the digits, leading zeros included. -/
theorem convert_decimal (s : St) (ds : List Nat) (hds : Digits ds)
    (hnum : s.numPressed = storeDigits ⟨0, 0, 0⟩ 0 ds)
    (hcount : s.countkeyPressed = ds.length) :
    (convert s).passedInput = decimal ds :=
  convert_stored s ⟨0, 0, 0⟩ ds ⟨Or.inl rfl, Or.inl rfl, Or.inl rfl⟩ hds.1 hds.2.1 hds.2.2
    hnum hcount

/-- Witness of C6: the keys `0`, `0`, `7` give 7. -/
theorem convert_decimal_witness :
    (convert { setup (fun _ => 255) [] [] 0 with
      numPressed := ⟨48, 48, 55⟩, countkeyPressed := 3 }).passedInput = 7 :=
  convert_decimal
    { setup (fun _ => 255) [] [] 0 with numPressed := ⟨48, 48, 55⟩, countkeyPressed := 3 }
    [0, 0, 7] ⟨by decide, by decide, by decide⟩ (by decide) (by decide)

theorem lastKey_ne (ds : List Nat) (hds : Digits ds) :
    lastKey ds ≠ '#' ∧ lastKey ds ≠ 'B' := by
  obtain ⟨h1, h3, hd⟩ := hds
  match ds, h1, h3, hd with
  | [d0], _, _, _ =>
    have h : lastKey [d0] = '*' := rfl
    rw [h]
    exact ⟨by decide, by decide⟩
  | [d0, d1], _, _, _ =>
    have h : lastKey [d0, d1] = '*' := rfl
    rw [h]
    exact ⟨by decide, by decide⟩
  | [d0, d1, d2], _, _, hd =>
    have h := digitKey_ne d2 (hd d2 (by simp))
    exact ⟨h.1, h.2.2.2.1⟩
  | [], h1, _, _ => simp at h1
  | _ :: _ :: _ :: _ :: _, _, h3, _ => simp at h3

theorem convert_eq (s : St) :
    convert s = { s with
      passedInput := (convert s).passedInput, countkeyPressed := 0,
      numPressed := ⟨0, 0, 0⟩ } := rfl

/-- Entering a number: `collectNumbers` returns after the key presses of the number, and
`convert` then yields its value and clears the pending digits, whatever digits an earlier
reset left in `numPressed`. -/
theorem collect_convert (ds : List Nat) (hds : Digits ds) (rest : List Char) (s : St)
    (hc : s.countkeyPressed = 0) (hn : s.numPressed.Codes) (hk : s.keys = entry ds ++ rest) :
    ∃ s1, collectNumbers s = .ok s1 ∧ s1.keyPressed = lastKey ds ∧
      convert s1 = entered s (lastKey ds) (decimal ds) rest := by
  refine ⟨_, collect_entry ds hds rest s hc hk, rfl, ?_⟩
  rw [convert_eq, convert_stored _ s.numPressed ds hn hds.1 hds.2.1 hds.2.2 rfl rfl]
  rfl

theorem collectKeys_untouched (ks : List Char) :
    ∀ s : St, Untouched s (collectKeys ks s).state := by
  induction ks with
  | nil =>
    intro s
    unfold collectKeys
    split_ifs <;> exact ⟨rfl, rfl, rfl, rfl, rfl, rfl, rfl, rfl⟩
  | cons k ks ih =>
    intro s
    unfold collectKeys
    simp only
    split_ifs
    all_goals first
      | exact ⟨rfl, rfl, rfl, rfl, rfl, rfl, rfl, rfl⟩
      | exact ih _

theorem collectNumbers_untouched (s s1 : St) (h : collectNumbers s = .ok s1) :
    Untouched s s1 := by
  have := collectKeys_untouched s.keys s
  unfold collectNumbers at h
  rw [h] at this
  exact this

/-! ## Saved lists: replay -/

theorem Run.bind_congr (r : Run) (f g : St → Run) (h : ∀ s, r = .ok s → f s = g s) :
    r.bind f = r.bind g := by
  cases r with
  | ok s => exact h s rfl
  | wait s => rfl

theorem loadStep_eeprom (c : Cfg) (t : Int) (s : St) : (loadStep c t s).eeprom = s.eeprom := by
  unfold loadStep
  split_ifs <;> rfl

theorem waitForKey_eeprom (s s1 : St) (h : waitForKey s = .ok s1) : s1.eeprom = s.eeprom := by
  unfold waitForKey at h
  split at h
  · cases h
  · cases h
    rfl

/-- The loop of `loadMovements`, started at any slot of a block whose first slot does not hold
164, moves to the values other than 164 of the slots left, in slot order. -/
theorem loadLoop_replay (c : Cfg) (saveLocation : Int) (n : Nat) :
    ∀ (i : Int) (s : St), EEPROM.read s saveLocation ≠ 164 →
      loadLoop c saveLocation n i s =
        replay c ((slots s.eeprom i n).filter (fun v => v ≠ 164)) s := by
  induction n with
  | zero =>
    intro i s _
    rfl
  | succ n ih =>
    intro i s hfirst
    unfold loadLoop
    rw [if_neg hfirst]
    simp only [slots]
    by_cases htemp : EEPROM.read s i = 164
    · have hslot : s.eeprom i % 256 = 164 := htemp
      simp only [htemp, ne_eq, not_true_eq_false, if_false, hslot, decide_False,
        List.filter_cons_of_neg, Bool.false_eq_true, not_false_eq_true]
      exact ih (i + 1) s hfirst
    · have hslot : ¬ s.eeprom i % 256 = 164 := htemp
      simp only [ne_eq, htemp, not_false_eq_true, if_true, hslot, decide_True,
        List.filter_cons_of_pos, replay]
      apply Run.bind_congr
      intro s1 hs1
      have hmem : s1.eeprom = s.eeprom := by
        by_cases hd : c.loadDelay = true
        · rw [if_pos hd] at hs1
          rw [waitForKey_eeprom _ _ hs1, loadStep_eeprom]
        · rw [if_neg hd] at hs1
          cases hs1
          exact loadStep_eeprom c _ s
      have hfirst1 : EEPROM.read s1 saveLocation ≠ 164 := by
        unfold EEPROM.read at hfirst ⊢
        rw [hmem]
        exact hfirst
      rw [ih (i + 1) s1 hfirst1, hmem]

theorem loadLoop_empty (c : Cfg) (saveLocation : Int) (n : Nat) (i : Int) (s : St)
    (hfirst : EEPROM.read s saveLocation = 164) :
    loadLoop c saveLocation n i s = .ok s ∨
      loadLoop c saveLocation n i s = .ok { s with notes := s.notes ++ [Note.noSaveData] } := by
  cases n with
  | zero => exact Or.inl rfl
  | succ n =>
    right
    unfold loadLoop
    rw [if_pos hfirst]

/-- When no move is refused and no confirmation key is awaited, a replay returns, prints
exactly its targets as step numbers and reads no key. -/
theorem replay_stepLog (c : Cfg) (hsoft : c.softLimit = false) (hdelay : c.loadDelay = false)
    (ts : List Int) :
    ∀ s : St, s.keyPressed ≠ '#' →
      ∃ t, replay c ts s = .ok t ∧ t.stepLog = s.stepLog ++ ts ∧ t.keys = s.keys := by
  induction ts with
  | nil =>
    intro s _
    exact ⟨s, rfl, by simp, rfl⟩
  | cons x xs ih =>
    intro s hk
    have hstep : loadStep c x s = moveMotor { s with
        totalTurn := c.stepsPerTurn * (s.countSteps - x), countSteps := x } := by
      simp [loadStep, hk, hsoft]
    obtain ⟨t, ht, hlog, hkeys⟩ := ih (loadStep c x s) (by rw [hstep]; exact hk)
    refine ⟨t, ?_, ?_, ?_⟩
    · simp only [replay, hdelay, Bool.false_eq_true, if_false, Run.bind]
      exact ht
    · rw [hlog, hstep]
      simp [moveMotor]
    · rw [hkeys, hstep]
      rfl

/-- C8. After the key of a load session is collected (state `s1`): when the first slot of
the block of that key holds 164, `loadMovements` returns without a move; otherwise it does
what a replay of the values other than 164 among the `blockLimit` slots of the block does, in
slot order, and when no move is refused (no soft limit, no delay, the prompt not left with
`#`) the step numbers printed are exactly those values. -/
theorem loadMovements_replay (c : Cfg) (s s1 : St) (hkey : collectNumbers s = .ok s1) :
    (EEPROM.read s (c.blockLimit * (convert s1).passedInput) = 164 →
      ∃ t, loadMovements c s = .ok t ∧ t.moved = s.moved ∧ t.stepLog = s.stepLog ∧
        t.countSteps = s.countSteps) ∧
    (EEPROM.read s (c.blockLimit * (convert s1).passedInput) ≠ 164 →
      loadMovements c s =
        replay c ((slots s.eeprom (c.blockLimit * (convert s1).passedInput)
          c.blockLimit.toNat).filter (fun v => v ≠ 164)) (convert s1) ∧
      (c.softLimit = false → c.loadDelay = false → s1.keyPressed ≠ '#' →
        ∃ t, loadMovements c s = .ok t ∧
          t.stepLog = s.stepLog ++ (slots s.eeprom (c.blockLimit * (convert s1).passedInput)
            c.blockLimit.toNat).filter (fun v => v ≠ 164))) := by
  obtain ⟨hpos, hmoved, hlog, hmem, -⟩ := collectNumbers_untouched s s1 hkey
  have hrun : loadMovements c s =
      loadLoop c (c.blockLimit * (convert s1).passedInput) c.blockLimit.toNat
        (c.blockLimit * (convert s1).passedInput) (convert s1) := by
    unfold loadMovements
    rw [hkey]
    rfl
  have hread : EEPROM.read (convert s1) (c.blockLimit * (convert s1).passedInput) =
      EEPROM.read s (c.blockLimit * (convert s1).passedInput) := by
    show s1.eeprom _ % 256 = s.eeprom _ % 256
    rw [hmem]
  constructor
  · intro hfirst
    rw [hrun]
    rcases loadLoop_empty c _ c.blockLimit.toNat (c.blockLimit * (convert s1).passedInput)
      (convert s1) (hread.trans hfirst) with h | h
    · exact ⟨_, h, hmoved, hlog, hpos⟩
    · exact ⟨_, h, hmoved, hlog, hpos⟩
  · intro hfirst
    have hrep := loadLoop_replay c (c.blockLimit * (convert s1).passedInput) c.blockLimit.toNat
      (c.blockLimit * (convert s1).passedInput) (convert s1) (by rw [hread]; exact hfirst)
    have hmem1 : (convert s1).eeprom = s.eeprom := hmem
    rw [hmem1] at hrep
    refine ⟨hrun.trans hrep, ?_⟩
    intro hsoft hdelay hk
    obtain ⟨t, ht, htlog, -⟩ := replay_stepLog c hsoft hdelay
      ((slots s.eeprom (c.blockLimit * (convert s1).passedInput)
          c.blockLimit.toNat).filter (fun v => v ≠ 164)) (convert s1) hk
    refine ⟨t, (hrun.trans hrep).trans ht, ?_⟩
    rw [htlog]
    show s1.stepLog ++ _ = _
    rw [hlog]

/-- Witness of C8: the block of key 3 holds 10, 164, 20, 164, 164; the load moves to 10 and
to 20. -/
theorem loadMovements_replay_witness :
    ∃ t, loadMovements userVariables sparseBlock = .ok t ∧ t.stepLog = [10, 20] := by
  obtain ⟨t, ht, hlog⟩ :=
    (loadMovements_replay userVariables sparseBlock (collectNumbers sparseBlock).state rfl).2
      (by decide) |>.2 (by decide) (by decide) (by decide)
  exact ⟨t, ht, by rw [hlog]; decide⟩

/-- C10, refuted as stated. On a store never written that holds 255 in every byte, a load of
key 7 prints no warning and moves the nozzle five times to 255. -/
theorem load_untouched_key_counterexample :
    freshStore.writes = [] ∧
    (loadMovements userVariables freshStore).state.notes = [] ∧
    (loadMovements userVariables freshStore).state.stepLog = [255, 255, 255, 255, 255] ∧
    (loadMovements userVariables freshStore).state.countSteps = 255 := by
  decide

/-- C10, amended. A load of a key whose first slot holds 164 prints "No save data on that
key", calls `stepper.move` not at all and leaves the position unchanged, whatever the other
slots hold. -/
theorem loadMovements_no_data (c : Cfg) (s s1 : St) (hkey : collectNumbers s = .ok s1)
    (hblock : 0 < c.blockLimit)
    (hfirst : EEPROM.read s (c.blockLimit * (convert s1).passedInput) = 164) :
    loadMovements c s =
      .ok { convert s1 with notes := s1.notes ++ [Note.noSaveData] } ∧
    (loadMovements c s).state.moved = s.moved ∧
    (loadMovements c s).state.countSteps = s.countSteps := by
  obtain ⟨hpos, hmoved, -, hmem, -⟩ := collectNumbers_untouched s s1 hkey
  have hrun : loadMovements c s =
      .ok { convert s1 with notes := s1.notes ++ [Note.noSaveData] } := by
    unfold loadMovements
    rw [hkey]
    obtain ⟨n, hn⟩ : ∃ n, c.blockLimit.toNat = n + 1 :=
      ⟨c.blockLimit.toNat - 1, by omega⟩
    simp only [Run.bind, hn]
    unfold loadLoop
    have : EEPROM.read { convert s1 with countkeyPressed := 0 }
        (c.blockLimit * (convert s1).passedInput) = 164 := by
      show s1.eeprom _ % 256 = 164
      rw [hmem]
      exact hfirst
    rw [if_pos this]
    rfl
  rw [hrun]
  exact ⟨rfl, hmoved, hpos⟩

/-- Witness of C10: every byte of the store is 164 and key 7 is loaded. -/
theorem loadMovements_no_data_witness :
    (loadMovements userVariables blankStore).state.notes = [Note.noSaveData] ∧
    (loadMovements userVariables blankStore).state.countSteps = 0 := by
  have h := loadMovements_no_data userVariables blankStore (collectNumbers blankStore).state
    rfl (by decide) (by decide)
  rw [h.1]
  exact ⟨by decide, by decide⟩

/-! ## Saved lists: save sessions -/

theorem collectKeys_hash (ks : List Char) (s : St) (hc : s.countkeyPressed < 3) :
    collectKeys ('#' :: ks) s = .ok { s with keyPressed := '#', keys := ks } := by
  rw [collectKeys]
  simp [hc]

theorem collectKeys_current (ks : List Char) (s : St) (hc : s.countkeyPressed < 3)
    (hsave : s.comingFromSave = true) :
    collectKeys ('B' :: ks) s = .ok { s with keyPressed := 'B', keys := ks } := by
  rw [collectKeys]
  simp [hc, hsave]

/-- Once `#` was pressed the save loop writes 164 in every slot left, without reading a key. -/
theorem saveLoop_fill (n : Nat) :
    ∀ (loc : Int) (s : St), s.keyPressed = '#' →
      ∃ t, saveLoop n loc s = .ok t ∧ Saved s t loc (List.replicate n 164) s.keys := by
  induction n with
  | zero =>
    intro loc s _
    exact ⟨s, rfl, rfl, rfl, by simp [addressed], rfl, rfl, rfl⟩
  | succ n ih =>
    intro loc s hk
    obtain ⟨t, ht, h1, h2, h3, h4, h5, h6⟩ := ih (loc + 1) (EEPROM.write s loc 164) hk
    refine ⟨t, ?_, h1, ?_, ?_, h4, h5, h6⟩
    · rw [saveLoop]
      simp only [hk, ne_eq, not_true_eq_false, if_false, Run.bind, if_true]
      exact ht
    · rw [h2]
      rfl
    · rw [h3]
      simp [List.replicate_succ, addressed, EEPROM.write]

theorem saveLoop_succ (n : Nat) (loc : Int) (s s1 : St) (hk : s.keyPressed ≠ '#')
    (h1 : collectNumbers s = .ok s1) :
    saveLoop (n + 1) loc s =
      if s1.keyPressed = 'B' then
        saveLoop n (loc + 1)
          (EEPROM.write { s1 with passedInput := s1.countSteps } loc s1.countSteps)
      else if s1.keyPressed = '#' then
        saveLoop n (loc + 1) (EEPROM.write (convert s1) loc 164)
      else
        saveLoop n (loc + 1) (EEPROM.write (convert s1) loc (convert s1).passedInput) := by
  rw [saveLoop]
  simp only [ne_eq, hk, not_false_eq_true, if_true, h1, Run.bind]
  by_cases hB : s1.keyPressed = 'B'
  · have hne : ¬ s1.keyPressed = '#' := by rw [hB]; decide
    simp only [hB, not_true_eq_false, if_false, Run.bind, if_true]
    rw [if_neg (by decide)]
  · simp only [hB, not_false_eq_true, if_true, Run.bind, if_false]
    rfl

theorem closing_cons (e : Entry) (es : List Entry) (n : Nat) :
    closing (e :: es) (n + 1) = closing es n := by
  simp [closing]

theorem blockBytes_cons (position : Int) (e : Entry) (es : List Entry) (n : Nat) :
    blockBytes position (e :: es) (n + 1) =
      e.value position % 256 :: blockBytes position es n := by
  simp [blockBytes]

/-- The save loop on a list of steps: it returns, and has written the step values as bytes and
then 164 in the slots left. -/
theorem saveLoop_steps (steps : List Entry) :
    ∀ (n : Nat) (loc : Int) (s : St) (rest : List Char),
      s.keyPressed ≠ '#' → s.countkeyPressed = 0 → s.numPressed.Codes →
      s.comingFromSave = true → (∀ e ∈ steps, e.Valid) → steps.length ≤ n →
      s.keys = stepKeys steps ++ closing steps n ++ rest →
      ∃ t, saveLoop n loc s = .ok t ∧ Saved s t loc (blockBytes s.countSteps steps n) rest := by
  induction steps with
  | nil =>
    intro n loc s rest hk hc hn hsave _ _ hkeys
    cases n with
    | zero =>
      refine ⟨s, rfl, ?_, rfl, by simp [blockBytes, addressed], rfl, rfl, rfl⟩
      simpa [stepKeys, closing] using hkeys
    | succ n =>
      have hkeys1 : s.keys = '#' :: rest := by simpa [stepKeys, closing] using hkeys
      have hs1 : collectNumbers s = .ok { s with keyPressed := '#', keys := rest } := by
        unfold collectNumbers
        rw [hkeys1, collectKeys_hash _ _ (by omega)]
      obtain ⟨t, ht, h1, h2, h3, h4, h5, h6⟩ := saveLoop_fill n (loc + 1)
        (EEPROM.write (convert { s with keyPressed := '#', keys := rest }) loc 164) rfl
      refine ⟨t, ?_, h1, ?_, ?_, h4, h5, h6⟩
      · rw [saveLoop_succ n loc s _ hk hs1, if_neg (show ¬ '#' = 'B' by decide), if_pos rfl]
        exact ht
      · rw [h2]
        rfl
      · rw [h3]
        simp [blockBytes, List.replicate_succ, addressed, EEPROM.write, convert]
  | cons e es ih =>
    intro n loc s rest hk hc hn hsave hvalid hlen hkeys
    cases n with
    | zero => simp at hlen
    | succ n =>
      have hlen1 : es.length ≤ n := by simpa using hlen
      have hvalid1 : ∀ x ∈ es, x.Valid := fun x hx => hvalid x (List.mem_cons_of_mem _ hx)
      rw [closing_cons] at hkeys
      rw [blockBytes_cons]
      cases e with
      | number ds =>
        have hds : Digits ds := hvalid (Entry.number ds) (List.mem_cons_self _ _)
        have hkeys1 : s.keys = entry ds ++ (stepKeys es ++ closing es n ++ rest) := by
          rw [hkeys]
          simp [stepKeys, Entry.keys, List.append_assoc]
        obtain ⟨s1, hs1, hlast, hconv⟩ := collect_convert ds hds _ s hc hn hkeys1
        obtain ⟨hne1, hne2⟩ := lastKey_ne ds hds
        obtain ⟨t, ht, h1, h2, h3, h4, h5, h6⟩ := ih n (loc + 1)
          (EEPROM.write (entered s (lastKey ds) (decimal ds) (stepKeys es ++ closing es n ++ rest))
            loc (decimal ds)) rest hne1 rfl ⟨Or.inl rfl, Or.inl rfl, Or.inl rfl⟩ hsave hvalid1 hlen1
          rfl
        refine ⟨t, ?_, h1, ?_, ?_, h4, h5, h6⟩
        · rw [saveLoop_succ n loc s s1 hk hs1, if_neg (by rw [hlast]; exact hne2),
            if_neg (by rw [hlast]; exact hne1), hconv]
          exact ht
        · rw [h2]
          rfl
        · rw [h3]
          simp [addressed, EEPROM.write, entered, Entry.value]
      | current =>
        have hkeys1 : s.keys = 'B' :: (stepKeys es ++ closing es n ++ rest) := by
          rw [hkeys]
          simp [stepKeys, Entry.keys, List.append_assoc]
        have hs1 : collectNumbers s = .ok { s with
            keyPressed := 'B', keys := stepKeys es ++ closing es n ++ rest } := by
          unfold collectNumbers
          rw [hkeys1, collectKeys_current _ _ (by omega) hsave]
        obtain ⟨t, ht, h1, h2, h3, h4, h5, h6⟩ := ih n (loc + 1)
          (EEPROM.write { s with
              keyPressed := 'B', keys := stepKeys es ++ closing es n ++ rest,
              passedInput := s.countSteps } loc s.countSteps)
          rest (show 'B' ≠ '#' by decide) hc hn hsave hvalid1 hlen1 rfl
        refine ⟨t, ?_, h1, ?_, ?_, h4, h5, h6⟩
        · rw [saveLoop_succ n loc s _ hk hs1, if_pos rfl]
          exact ht
        · rw [h2]
          rfl
        · rw [h3]
          simp [addressed, EEPROM.write, Entry.value]

theorem storeBytes_outside (vs : List Int) :
    ∀ (mem : Int → Int) (a x : Int), x < a ∨ a + vs.length ≤ x →
      storeBytes mem a vs x = mem x := by
  induction vs with
  | nil =>
    intro mem a x _
    rfl
  | cons v vs ih =>
    intro mem a x hx
    rw [storeBytes, ih _ (a + 1) x (by simp only [List.length_cons, Nat.cast_add, Nat.cast_one] at hx; omega)]
    have : x ≠ a := by
      simp only [List.length_cons, Nat.cast_add, Nat.cast_one] at hx
      omega
    simp [this]

theorem slots_storeBytes (vs : List Int) :
    ∀ (mem : Int → Int) (a : Int), (∀ v ∈ vs, 0 ≤ v ∧ v < 256) →
      slots (storeBytes mem a vs) a vs.length = vs := by
  induction vs with
  | nil =>
    intro mem a _
    rfl
  | cons v vs ih =>
    intro mem a hv
    have hv0 := hv v (List.mem_cons_self _ _)
    rw [List.length_cons, slots, storeBytes, ih _ (a + 1) (fun x hx => hv x (List.mem_cons_of_mem _ hx)),
      storeBytes_outside vs _ (a + 1) a (Or.inl (by omega))]
    simp only [if_true]
    rw [Int.emod_eq_of_lt hv0.1 hv0.2]

theorem addressed_fst (vs : List Int) :
    ∀ a : Int, (addressed a vs).map Prod.fst =
      (List.range vs.length).map (fun j : Nat => a + (j : Int)) := by
  induction vs with
  | nil =>
    intro a
    rfl
  | cons v vs ih =>
    intro a
    rw [addressed, List.map_cons, ih (a + 1), List.length_cons, List.range_succ_eq_map,
      List.map_cons, List.map_map]
    simp only [Nat.cast_zero, add_zero, List.cons.injEq, true_and]
    apply List.map_congr_left
    intro j _
    simp only [Function.comp_apply, Nat.cast_succ]
    omega

theorem addressed_snd (vs : List Int) :
    ∀ a : Int, (addressed a vs).map Prod.snd = vs := by
  induction vs with
  | nil =>
    intro a
    rfl
  | cons v vs ih =>
    intro a
    rw [addressed, List.map_cons, ih (a + 1)]

theorem blockBytes_length (position : Int) (steps : List Entry) (n : Nat)
    (h : steps.length ≤ n) : (blockBytes position steps n).length = n := by
  simp [blockBytes]
  omega

theorem blockBytes_byte (position : Int) (steps : List Entry) (n : Nat) :
    ∀ v ∈ blockBytes position steps n, 0 ≤ v ∧ v < 256 := by
  intro v hv
  simp only [blockBytes, List.mem_append, List.mem_map, List.mem_replicate] at hv
  rcases hv with ⟨e, -, rfl⟩ | ⟨-, rfl⟩
  · exact ⟨Int.emod_nonneg _ (by decide), Int.emod_lt_of_pos _ (by decide)⟩
  · exact ⟨by decide, by decide⟩

/-- A whole save session: the key is entered, then the steps, then `#` when slots are left.
`saveMovements` returns, has written the bytes of the steps and 164 in the slots left, from
the address `blockLimit * key` on, and has left the axis alone. -/
theorem saveMovements_session (c : Cfg) (key : List Nat) (steps : List Entry)
    (rest : List Char) (s : St) (hkey : Digits key) (hvalid : ∀ e ∈ steps, e.Valid)
    (hlen : steps.length ≤ c.blockLimit.toNat) (hc : s.countkeyPressed = 0)
    (hn : s.numPressed.Codes) (hkeys : s.keys = saveSession c key steps ++ rest) :
    ∃ t, saveMovements c s = .ok t ∧
      Saved s t (c.blockLimit * decimal key)
        (blockBytes s.countSteps steps c.blockLimit.toNat) rest := by
  have hkeys1 : ({ s with comingFromSave := true } : St).keys =
      entry key ++ (stepKeys steps ++ closing steps c.blockLimit.toNat ++ rest) := by
    show s.keys = _
    rw [hkeys]
    simp [saveSession, List.append_assoc]
  obtain ⟨s1, hs1, hlast, hconv⟩ :=
    collect_convert key hkey _ { s with comingFromSave := true } hc hn hkeys1
  obtain ⟨hne1, -⟩ := lastKey_ne key hkey
  obtain ⟨t, ht, h1, h2, h3, h4, h5, h6⟩ := saveLoop_steps steps c.blockLimit.toNat
    (c.blockLimit * decimal key)
    (entered { s with comingFromSave := true } (lastKey key) (decimal key)
      (stepKeys steps ++ closing steps c.blockLimit.toNat ++ rest))
    rest hne1 rfl ⟨Or.inl rfl, Or.inl rfl, Or.inl rfl⟩ rfl hvalid hlen rfl
  refine ⟨{ t with countkeyPressed := 0, keyPressed := NULL, comingFromSave := false }, ?_,
    h1, h2, h3, h4, h5, h6⟩
  unfold saveMovements
  rw [hs1]
  simp only [Run.bind]
  rw [if_pos (by rw [hlast]; exact hne1), hconv]
  have hrun : saveLoop c.blockLimit.toNat
      (c.blockLimit * ({ entered { s with comingFromSave := true } (lastKey key) (decimal key)
          (stepKeys steps ++ closing steps c.blockLimit.toNat ++ rest) with
          countkeyPressed := 0 } : St).passedInput)
      { entered { s with comingFromSave := true } (lastKey key) (decimal key)
          (stepKeys steps ++ closing steps c.blockLimit.toNat ++ rest) with
          countkeyPressed := 0 } = .ok t := ht
  rw [hrun]

theorem decimal_nonneg (ds : List Nat) : 0 ≤ decimal ds := by
  unfold decimal
  have key : ∀ (l : List Nat) (acc : Int), 0 ≤ acc →
      0 ≤ l.foldl (fun acc d => 10 * acc + (d : Int)) acc := by
    intro l
    induction l with
    | nil =>
      intro acc h
      exact h
    | cons d l ih =>
      intro acc h
      exact ih _ (by positivity)
  exact key ds 0 (le_refl 0)

theorem loadMovements_after_entry (c : Cfg) (key : List Nat) (hkey : Digits key)
    (rest : List Char) (u : St) (hc : u.countkeyPressed = 0) (hn : u.numPressed.Codes)
    (hkeys : u.keys = entry key ++ rest) :
    loadMovements c u =
      loadLoop c (c.blockLimit * decimal key) c.blockLimit.toNat (c.blockLimit * decimal key)
        (entered u (lastKey key) (decimal key) rest) := by
  obtain ⟨s1, hs1, -, hconv⟩ := collect_convert key hkey rest u hc hn hkeys
  unfold loadMovements
  rw [hs1]
  simp only [Run.bind]
  rw [hconv]
  rfl

/-- The bytes of typed steps below 256 are the step values themselves. -/
theorem blockBytes_numbers (position : Int) (steps : List (List Nat)) (n : Nat)
    (h : ∀ ds ∈ steps, decimal ds < 256) :
    blockBytes position (steps.map Entry.number) n =
      steps.map decimal ++ List.replicate (n - steps.length) 164 := by
  unfold blockBytes
  rw [List.length_map, List.map_map]
  congr 1
  apply List.map_congr_left
  intro ds hds
  exact Int.emod_eq_of_lt (decimal_nonneg ds) (h ds hds)

theorem filter_targets (values : List Int) (k : Nat) (h : ∀ v ∈ values, v ≠ 164) :
    (values ++ List.replicate k 164).filter (fun v => v ≠ 164) = values := by
  rw [List.filter_append]
  have h1 : values.filter (fun v => v ≠ 164) = values := by
    rw [List.filter_eq_self]
    intro v hv
    simpa using h v hv
  have h2 : (List.replicate k (164 : Int)).filter (fun v => v ≠ 164) = [] := by
    rw [List.filter_eq_nil_iff]
    intro v hv
    rw [List.eq_of_mem_replicate hv]
    simp
  rw [h1, h2, List.append_nil]

/-- C9. In a save session in which a key is entered and then `n` steps (`n` at most
`blockLimit`, closed by `#` when `n` is less), started with no digits pending as `keypadInput`
starts it, `saveMovements` returns; its writes are exactly
one per address of the block `blockLimit * key`, ..., `blockLimit * key + blockLimit - 1`, in
increasing order; the bytes written are the step values and then 164 in every slot from
offset `n` on; every address outside the block keeps its contents, so the block of any other
key is as before. -/
theorem saveMovements_block (c : Cfg) (key : List Nat) (steps : List Entry)
    (rest : List Char) (s : St) (hkey : Digits key) (hvalid : ∀ e ∈ steps, e.Valid)
    (hlen : steps.length ≤ c.blockLimit.toNat) (hc : s.countkeyPressed = 0)
    (hn : s.numPressed.Codes) (hkeys : s.keys = saveSession c key steps ++ rest) :
    ∃ t, saveMovements c s = .ok t ∧
      (∃ ws, t.writes = s.writes ++ ws ∧
        ws.map Prod.fst =
          (List.range c.blockLimit.toNat).map
            (fun j : Nat => c.blockLimit * decimal key + (j : Int)) ∧
        ws.map Prod.snd =
          steps.map (fun e => e.value s.countSteps % 256) ++
            List.replicate (c.blockLimit.toNat - steps.length) 164) ∧
      (∀ a : Int, a < c.blockLimit * decimal key ∨
          c.blockLimit * decimal key + c.blockLimit.toNat ≤ a → t.eeprom a = s.eeprom a) ∧
      (∀ other j : Int, other ≠ decimal key → 0 ≤ j → j < c.blockLimit →
        t.eeprom (c.blockLimit * other + j) = s.eeprom (c.blockLimit * other + j)) := by
  obtain ⟨t, ht, -, hmem, hw, -⟩ :=
    saveMovements_session c key steps rest s hkey hvalid hlen hc hn hkeys
  have hlength := blockBytes_length s.countSteps steps c.blockLimit.toNat hlen
  have hframe : ∀ a : Int, a < c.blockLimit * decimal key ∨
      c.blockLimit * decimal key + c.blockLimit.toNat ≤ a → t.eeprom a = s.eeprom a := by
    intro a ha
    rw [hmem]
    apply storeBytes_outside
    rw [hlength]
    exact ha
  refine ⟨t, ht, ⟨_, hw, ?_, ?_⟩, hframe, ?_⟩
  · rw [addressed_fst, hlength]
  · rw [addressed_snd]
    rfl
  · intro other j hother h0 hj
    apply hframe
    have hb : (c.blockLimit.toNat : Int) = c.blockLimit := Int.toNat_of_nonneg (by omega)
    rw [hb]
    rcases lt_or_gt_of_ne hother with h | h
    · left
      have : c.blockLimit * (other + 1) ≤ c.blockLimit * decimal key :=
        Int.mul_le_mul_of_nonneg_left (by omega) (by omega)
      rw [mul_add, mul_one] at this
      omega
    · right
      have : c.blockLimit * (decimal key + 1) ≤ c.blockLimit * other :=
        Int.mul_le_mul_of_nonneg_left (by omega) (by omega)
      rw [mul_add, mul_one] at this
      omega

/-- Witness of C9: key 3 and the steps 10, current position (0) and 20, closed by `#`. -/
theorem saveMovements_block_witness :
    ∃ t, saveMovements userVariables threeSteps = .ok t ∧
      t.writes = [(15, 10), (16, 0), (17, 20), (18, 164), (19, 164)] ∧
      t.eeprom 14 = 255 ∧ t.eeprom 20 = 255 := by
  obtain ⟨t, ht, -, hframe, -⟩ :=
    saveMovements_block userVariables [3]
      [Entry.number [1, 0], Entry.current, Entry.number [2, 0]] [] threeSteps
      ⟨by decide, by decide, by decide⟩
      (by
        intro e he
        simp only [List.mem_cons, List.mem_singleton, List.not_mem_nil, or_false] at he
        rcases he with rfl | rfl | rfl
        · exact ⟨by decide, by decide, by decide⟩
        · trivial
        · exact ⟨by decide, by decide, by decide⟩)
      (by decide) rfl ⟨Or.inl rfl, Or.inl rfl, Or.inl rfl⟩ rfl
  have h14 := hframe 14 (Or.inl (by decide))
  have h20 := hframe 20 (Or.inr (by decide))
  have hw : (saveMovements userVariables threeSteps).state.writes =
      [(15, 10), (16, 0), (17, 20), (18, 164), (19, 164)] := by decide
  rw [ht] at hw
  exact ⟨t, ht, hw, h14, h20⟩

/-- C7, refuted as stated. Key 3 is saved with the single step 300 and loaded again: the load
moves to 44, not to 300. Key 3 is saved with the steps 164 and 20 and loaded again: the load
reports no data and moves nowhere. -/
theorem save_load_large_step_counterexample :
    saveLargeStep.keys = saveSession userVariables [3] [Entry.number [3, 0, 0]] ++ entry [3] ∧
    decimal [3, 0, 0] = 300 ∧
    ((saveMovements userVariables saveLargeStep).bind (loadMovements userVariables)).state.stepLog
      = [44] ∧
    saveSentinelStep.keys =
      saveSession userVariables [3] [Entry.number [1, 6, 4], Entry.number [2, 0]] ++ entry [3] ∧
    ((saveMovements userVariables saveSentinelStep).bind
      (loadMovements userVariables)).state.stepLog = [] ∧
    ((saveMovements userVariables saveSentinelStep).bind
      (loadMovements userVariables)).state.notes = [Note.noSaveData] := by
  decide
/-- C7, amended. A save session stores under a key at most `blockLimit` typed steps, each
below 256 and other than 164. Then a load session on that key, in any later state with the
same EEPROM contents, does what a replay of exactly these steps does, in order (nothing when
no step was saved); with no soft limit and no delay it returns having printed exactly these
steps as step numbers. -/
theorem save_load_round_trip (c : Cfg) (key : List Nat) (steps : List (List Nat))
    (rest : List Char) (s : St) (hkey : Digits key)
    (hsteps : ∀ ds ∈ steps, Digits ds ∧ decimal ds < 256 ∧ decimal ds ≠ 164)
    (hlen : steps.length ≤ c.blockLimit.toNat) (hc : s.countkeyPressed = 0)
    (hn : s.numPressed.Codes)
    (hkeys : s.keys = saveSession c key (steps.map Entry.number) ++ rest) :
    ∃ t, saveMovements c s = .ok t ∧ t.keys = rest ∧
      ∀ (u : St) (rest2 : List Char), u.eeprom = t.eeprom → u.countkeyPressed = 0 →
        u.numPressed.Codes → u.keys = entry key ++ rest2 →
        (steps ≠ [] →
          loadMovements c u =
            replay c (steps.map decimal) (entered u (lastKey key) (decimal key) rest2)) ∧
        (steps = [] →
          ∃ v, loadMovements c u = .ok v ∧ v.moved = u.moved ∧ v.stepLog = u.stepLog ∧
            v.countSteps = u.countSteps) ∧
        (c.softLimit = false → c.loadDelay = false →
          ∃ v, loadMovements c u = .ok v ∧ v.keys = rest2 ∧
            v.stepLog = u.stepLog ++ steps.map decimal) := by
  have hvalid : ∀ e ∈ steps.map Entry.number, e.Valid := by
    intro e he
    obtain ⟨ds, hds, rfl⟩ := List.mem_map.mp he
    exact (hsteps ds hds).1
  have hlen1 : (steps.map Entry.number).length ≤ c.blockLimit.toNat := by
    rw [List.length_map]
    exact hlen
  obtain ⟨t, ht, hrest, hmem, -⟩ :=
    saveMovements_session c key (steps.map Entry.number) rest s hkey hvalid hlen1 hc hn hkeys
  refine ⟨t, ht, hrest, ?_⟩
  intro u rest2 hu huc hun hukeys
  have hrun := loadMovements_after_entry c key hkey rest2 u huc hun hukeys
  have hbytes := blockBytes_numbers s.countSteps steps c.blockLimit.toNat
    (fun ds hds => (hsteps ds hds).2.1)
  have hslots : slots (entered u (lastKey key) (decimal key) rest2).eeprom
      (c.blockLimit * decimal key) c.blockLimit.toNat =
      steps.map decimal ++ List.replicate (c.blockLimit.toNat - steps.length) 164 := by
    show slots u.eeprom _ _ = _
    rw [hu, hmem, ← hbytes]
    have h := slots_storeBytes (blockBytes s.countSteps (steps.map Entry.number)
      c.blockLimit.toNat) s.eeprom (c.blockLimit * decimal key) (blockBytes_byte _ _ _)
    rw [blockBytes_length _ _ _ hlen1] at h
    exact h
  have hfilter := filter_targets (steps.map decimal) (c.blockLimit.toNat - steps.length)
    (by
      intro v hv
      obtain ⟨ds, hds, rfl⟩ := List.mem_map.mp hv
      exact (hsteps ds hds).2.2)
  have hlast := (lastKey_ne key hkey).1
  -- the replay when at least one step was saved
  have hfull : steps ≠ [] →
      loadMovements c u =
        replay c (steps.map decimal) (entered u (lastKey key) (decimal key) rest2) := by
    intro hne
    obtain ⟨ds, ds', rfl⟩ := List.exists_cons_of_ne_nil hne
    obtain ⟨n, hn1⟩ : ∃ n, c.blockLimit.toNat = n + 1 :=
      ⟨c.blockLimit.toNat - 1, by simp only [List.length_cons] at hlen; omega⟩
    have hfirst : EEPROM.read (entered u (lastKey key) (decimal key) rest2)
        (c.blockLimit * decimal key) ≠ 164 := by
      rw [hn1, slots, List.map_cons, List.cons_append] at hslots
      have h0 := (List.cons.inj hslots).1
      unfold EEPROM.read
      rw [h0]
      exact (hsteps ds (List.mem_cons_self _ _)).2.2
    rw [hrun, loadLoop_replay c _ _ _ _ hfirst, hslots, hfilter]
  -- nothing is replayed when no step was saved
  have hnone : steps = [] →
      ∃ v, loadMovements c u = .ok v ∧ v.moved = u.moved ∧ v.stepLog = u.stepLog ∧
        v.countSteps = u.countSteps ∧ v.keys = rest2 := by
    intro hnil
    subst hnil
    rw [hrun]
    cases hb : c.blockLimit.toNat with
    | zero => exact ⟨_, rfl, rfl, rfl, rfl, rfl⟩
    | succ n =>
      have hfirst : EEPROM.read (entered u (lastKey key) (decimal key) rest2)
          (c.blockLimit * decimal key) = 164 := by
        rw [hb, slots] at hslots
        simp only [List.map_nil, List.nil_append, List.length_nil, Nat.sub_zero,
          List.replicate_succ] at hslots
        exact (List.cons.inj hslots).1
      rcases loadLoop_empty c _ (n + 1) (c.blockLimit * decimal key) _ hfirst with h | h
      · exact ⟨_, h, rfl, rfl, rfl, rfl⟩
      · exact ⟨_, h, rfl, rfl, rfl, rfl⟩
  refine ⟨hfull, ?_, ?_⟩
  · intro hnil
    obtain ⟨v, hv, h1, h2, h3, -⟩ := hnone hnil
    exact ⟨v, hv, h1, h2, h3⟩
  · intro hsoft hdelay
    by_cases hnil : steps = []
    · obtain ⟨v, hv, -, h2, -, h4⟩ := hnone hnil
      refine ⟨v, hv, h4, ?_⟩
      rw [h2, hnil]
      simp
    · obtain ⟨v, hv, hlog, hk⟩ := replay_stepLog c hsoft hdelay (steps.map decimal)
        (entered u (lastKey key) (decimal key) rest2) hlast
      exact ⟨v, (hfull hnil).trans hv, hk, hlog⟩

/-- Witness of C7: key 3, steps 10 and 20, `blockLimit` 5: the load replays exactly 10, 20. -/
theorem save_load_round_trip_witness :
    ∃ v, (saveMovements userVariables saveThenLoad).bind (loadMovements userVariables) = .ok v ∧
      v.stepLog = [10, 20] := by
  obtain ⟨t, ht, -, h⟩ :=
    save_load_round_trip userVariables [3] [[1, 0], [2, 0]] ['3', '*'] saveThenLoad
      ⟨by decide, by decide, by decide⟩
      (by
        intro ds hds
        simp only [List.mem_cons, List.mem_singleton, List.not_mem_nil, or_false] at hds
        rcases hds with rfl | rfl
        · exact ⟨⟨by decide, by decide, by decide⟩, by decide, by decide⟩
        · exact ⟨⟨by decide, by decide, by decide⟩, by decide, by decide⟩)
      (by decide) rfl ⟨Or.inl rfl, Or.inl rfl, Or.inl rfl⟩ rfl
  have hstate : t = (saveMovements userVariables saveThenLoad).state := by
    rw [ht]
    rfl
  obtain ⟨v, hv, -, hlog⟩ :=
    (h t [] rfl (by rw [hstate]; decide)
      (by rw [hstate]; exact ⟨Or.inl (by decide), Or.inl (by decide), Or.inl (by decide)⟩)
      (by rw [hstate]; decide)).2.2 rfl rfl
  refine ⟨v, ?_, ?_⟩
  · rw [ht]
    exact hv
  · rw [hlog, hstate]
    decide

/-! ## Cycling: the bound on the jumps -/

theorem collectKeys_keys (ks : List Char) :
    ∀ s t : St, s.keys = ks → collectKeys ks s = .ok t →
      t.keys.length ≤ ks.length ∧ (s.countkeyPressed < 3 → t.keys.length < ks.length) := by
  induction ks with
  | nil =>
    intro s t hs h
    unfold collectKeys at h
    split_ifs at h with a
    cases h
    exact ⟨by rw [hs], fun hc => absurd hc a⟩
  | cons k ks ih =>
    intro s t hs h
    unfold collectKeys at h
    simp only at h
    have hrec : ∀ u : St, u.keys = ks → collectKeys ks u = .ok t →
        t.keys.length ≤ (k :: ks).length ∧
          (s.countkeyPressed < 3 → t.keys.length < (k :: ks).length) := by
      intro u hu hrun
      have := (ih u t hu hrun).1
      simp only [List.length_cons]
      exact ⟨by omega, fun _ => by omega⟩
    have hdone : ∀ u : St, u.keys = ks → Run.ok u = Run.ok t →
        t.keys.length ≤ (k :: ks).length ∧
          (s.countkeyPressed < 3 → t.keys.length < (k :: ks).length) := by
      intro u hu hrun
      cases hrun
      rw [hu]
      simp
    split_ifs at h with a1 a2 a3 a4 a5 a6
    · exact hdone _ rfl h
    · exact hrec _ rfl h
    · exact hdone _ rfl h
    · exact hdone _ rfl h
    · exact hrec _ rfl h
    · exact hrec _ rfl h
    · cases h
      exact ⟨by rw [hs], fun hc => absurd hc a1⟩

theorem collectNumbers_keys (s t : St) (h : collectNumbers s = .ok t) :
    t.keys.length ≤ s.keys.length ∧ (s.countkeyPressed < 3 → t.keys.length < s.keys.length) :=
  collectKeys_keys s.keys s t rfl h

/-- The bound on the jumps in `CycleMovement` is never reached: every round that ends in the
`goto` has read a key, so any two bounds above the number of key presses to come give the same
run. -/
theorem startCycle_fuel (c : Cfg) (fuel : Nat) :
    ∀ (s : St) (more : Nat), s.keys.length < fuel → s.keys.length < more →
      startCycle c fuel s = startCycle c more s := by
  induction fuel with
  | zero =>
    intro s more h _
    omega
  | succ fuel ih =>
    intro s more h hmore
    obtain ⟨more, rfl⟩ : ∃ m, more = m + 1 := ⟨more - 1, by omega⟩
    rw [startCycle, startCycle]
    apply Run.bind_congr
    intro s1 hs1
    have hk1 := (collectNumbers_keys s s1 hs1).1
    dsimp only
    split_ifs with a1
    · apply Run.bind_congr
      intro s2 hs2
      have hk2 := (collectNumbers_keys _ s2 hs2).2 (show (0 : Int) < 3 by decide)
      have hk2' : s2.keys.length < s1.keys.length := hk2
      split_ifs with a2 a3
      · exact ih _ more (by show s2.keys.length < fuel; omega) (by show s2.keys.length < more; omega)
      · rfl
      · rfl
    · rfl

/-! ## The soft limit -/

theorem keymap_cases (k : Char) (h : k ∈ keymap) :
    k = '#' ∨ k = '*' ∨ k = 'A' ∨ k = 'B' ∨ k = 'C' ∨ k = 'D' ∨ Code k.toNat := by
  simp only [keymap, List.mem_cons, List.mem_singleton, List.not_mem_nil, or_false] at h
  unfold Code
  rcases h with rfl | rfl | rfl | rfl | rfl | rfl | rfl | rfl | rfl | rfl | rfl | rfl | rfl |
    rfl | rfl | rfl <;> decide

theorem Arr3.set_codes (a : Arr3) (i v : Int) (ha : a.Codes) (hv : Code v) :
    (a.set i v).Codes := by
  obtain ⟨h0, h1, h2⟩ := ha
  unfold Arr3.set
  split_ifs
  · exact ⟨hv, h1, h2⟩
  · exact ⟨h0, hv, h2⟩
  · exact ⟨h0, h1, hv⟩
  · exact ⟨h0, h1, h2⟩

theorem moveMotor_inv (c : Cfg) (s : St) (h : Inv c s) : Inv c (moveMotor s) := by
  obtain ⟨hp, hl, hn, hk⟩ := h
  refine ⟨hp, ?_, hn, hk⟩
  intro x hx
  simp only [moveMotor, List.mem_append, List.mem_singleton] at hx
  rcases hx with hx | rfl
  · exact hl x hx
  · exact hp

theorem loadStep_inv (c : Cfg) (hsoft : c.softLimit = true) (target : Int) (s : St)
    (h0 : 0 ≤ target) (h : Inv c s) : Inv c (loadStep c target s) := by
  unfold loadStep
  split_ifs with h1 h2
  · exact h
  · rcases h2 with h2 | h2
    · exact moveMotor_inv c _ ⟨⟨h0, h2⟩, h.2.1, h.2.2.1, h.2.2.2⟩
    · rw [hsoft] at h2
      cases h2
  · exact h

theorem knobTurn_inv (c : Cfg) (newKnob : Int) (pin : Bool) (s : St) (h : Inv c s) :
    Inv c (knobTurn c newKnob pin s) := by
  obtain ⟨⟨h0, hL⟩, hl, hn, hk⟩ := h
  have hcw : 0 < s.countSteps → Inv c (CWturn c s) := fun hpos =>
    moveMotor_inv c _ ⟨⟨by show 0 ≤ s.countSteps - 1; omega, by show s.countSteps - 1 ≤ _; omega⟩,
      hl, hn, hk⟩
  have hccw : s.countSteps < c.clickLimit → Inv c (CCWturn c s) := fun hlt =>
    moveMotor_inv c _ ⟨⟨by show 0 ≤ s.countSteps + 1; omega, by show s.countSteps + 1 ≤ _; omega⟩,
      hl, hn, hk⟩
  unfold knobTurn
  split_ifs with a1 a2 a3 a4 a5 a6 a7
  · exact hccw a2.2.2
  · exact hcw a3.2.2
  · exact ⟨⟨h0, hL⟩, hl, hn, hk⟩
  · exact hcw a4.2
  · exact ⟨⟨h0, hL⟩, hl, hn, hk⟩
  · exact hccw a6.2
  · exact ⟨⟨h0, hL⟩, hl, hn, hk⟩
  · exact ⟨⟨h0, hL⟩, hl, hn, hk⟩

theorem manualPoll_inv (c : Cfg) (knobRead : Int) (pin : Bool) (s : St) (h : Inv c s) :
    Inv c (manualPoll c knobRead pin s) := by
  unfold manualPoll
  simp only
  have h1 := knobTurn_inv c (knobRead.tdiv (-4)) pin
    { s with passedInput := 0, led := decide (s.countSteps = 0 ∨ s.countSteps ≥ c.clickLimit) } h
  split_ifs
  · exact h1
  · exact h1

theorem collectKeys_inv (c : Cfg) (ks : List Char) :
    ∀ s : St, s.keys = ks → Inv c s → Inv c (collectKeys ks s).state := by
  induction ks with
  | nil =>
    intro s _ h
    unfold collectKeys
    split_ifs <;> exact h
  | cons k ks ih =>
    intro s hks h
    obtain ⟨hp, hl, hn, hk⟩ := h
    have hmem : ∀ x ∈ ks, x ∈ keymap := fun x hx => hk x (by rw [hks]; exact List.mem_cons_of_mem _ hx)
    have hkey : k ∈ keymap := hk k (by rw [hks]; exact List.mem_cons_self _ _)
    unfold collectKeys
    simp only
    split_ifs with a1 a2 a3 a4 a5 a6
    · exact ⟨hp, hl, hn, hmem⟩
    · exact ih _ rfl ⟨hp, hl, hn, hmem⟩
    · exact ⟨hp, hl, hn, hmem⟩
    · exact ⟨hp, hl, hn, hmem⟩
    · exact ih _ rfl ⟨hp, hl, hn, hmem⟩
    · refine ih _ rfl ⟨hp, hl, Arr3.set_codes _ _ _ hn ?_, hmem⟩
      rcases keymap_cases k hkey with e | e | e | e | e | e | e
      · exact absurd e a2
      · exact absurd e a3
      · exact absurd (Or.inl e) a6
      · exact absurd (Or.inr (Or.inl e)) a6
      · exact absurd (Or.inr (Or.inr (Or.inl e))) a6
      · exact absurd (Or.inr (Or.inr (Or.inr e))) a6
      · exact e
    · exact ⟨hp, hl, hn, hk⟩

theorem collectNumbers_inv (c : Cfg) (s : St) (h : Inv c s) :
    Inv c (collectNumbers s).state :=
  collectKeys_inv c s.keys s rfl h

theorem convert_nonneg (s : St) (hn : s.numPressed.Codes) : 0 ≤ (convert s).passedInput := by
  obtain ⟨c0, c1, c2⟩ := hn
  have b0 := toDigit_code _ c0
  have b1 := toDigit_code _ c1
  have b2 := toDigit_code _ c2
  rw [convert_passedInput]
  split_ifs
  · rw [Int.tdiv_eq_ediv (by omega) (by omega)]
    omega
  · rw [Int.tdiv_eq_ediv (by omega) (by omega)]
    omega
  · omega

theorem convert_inv (c : Cfg) (s : St) (h : Inv c s) : Inv c (convert s) :=
  ⟨h.1, h.2.1, ⟨Or.inl rfl, Or.inl rfl, Or.inl rfl⟩, h.2.2.2⟩

theorem write_inv (c : Cfg) (s : St) (a v : Int) (h : Inv c s) : Inv c (EEPROM.write s a v) := h

/-- An invariant of the states passes through sequencing. -/
theorem Run.bind_inv (P : St → Prop) (r : Run) (f : St → Run) (hr : P r.state)
    (hf : ∀ s, P s → P (f s).state) : P (r.bind f).state := by
  cases r with
  | ok s => exact hf s hr
  | wait s => exact hr

theorem saveLoop_inv (c : Cfg) (n : Nat) :
    ∀ (loc : Int) (s : St), Inv c s → Inv c (saveLoop n loc s).state := by
  induction n with
  | zero =>
    intro loc s h
    exact h
  | succ n ih =>
    intro loc s h
    rw [saveLoop]
    apply Run.bind_inv (Inv c)
    · split_ifs
      · apply Run.bind_inv (Inv c) _ _ (collectNumbers_inv c s h)
        intro s1 h1
        split_ifs
        · exact convert_inv c s1 h1
        · exact h1
      · exact h
    · intro s1 h1
      split_ifs
      · exact ih _ _ (write_inv c s1 loc 164 h1)
      · exact ih _ _ (write_inv c s1 loc s1.passedInput h1)

theorem saveMovements_inv (c : Cfg) (s : St) (h : Inv c s) :
    Inv c (saveMovements c s).state := by
  unfold saveMovements
  apply Run.bind_inv (Inv c)
  · exact collectNumbers_inv c { s with comingFromSave := true } h
  · intro s1 h1
    apply Run.bind_inv (Inv c)
    · split_ifs
      · exact saveLoop_inv c _ _ _ (convert_inv c s1 h1)
      · exact h1
    · intro s2 h2
      exact h2

theorem EEPROM.read_nonneg (s : St) (a : Int) : 0 ≤ EEPROM.read s a :=
  Int.emod_nonneg _ (by decide)

theorem waitForKey_inv (c : Cfg) (s : St) (h : Inv c s) : Inv c (waitForKey s).state := by
  unfold waitForKey
  split
  · exact h
  · rename_i k ks hk
    exact ⟨h.1, h.2.1, h.2.2.1, fun x hx => h.2.2.2 x (by rw [hk]; exact List.mem_cons_of_mem _ hx)⟩

theorem loadLoop_inv (c : Cfg) (hsoft : c.softLimit = true) (saveLocation : Int) (n : Nat) :
    ∀ (i : Int) (s : St), Inv c s → Inv c (loadLoop c saveLocation n i s).state := by
  induction n with
  | zero =>
    intro i s h
    exact h
  | succ n ih =>
    intro i s h
    rw [loadLoop]
    have hstep : Inv c (loadStep c (EEPROM.read s i) s) :=
      loadStep_inv c hsoft _ s (EEPROM.read_nonneg s i) h
    dsimp only
    split_ifs
    · exact h
    · exact Run.bind_inv (Inv c) _ _ (waitForKey_inv c _ hstep) (ih (i + 1))
    · exact Run.bind_inv (Inv c) (.ok _) _ hstep (ih (i + 1))
    · exact ih (i + 1) s h

theorem loadMovements_inv (c : Cfg) (hsoft : c.softLimit = true) (s : St) (h : Inv c s) :
    Inv c (loadMovements c s).state := by
  unfold loadMovements
  apply Run.bind_inv (Inv c)
  · exact collectNumbers_inv c s h
  · intro s1 h1
    exact loadLoop_inv c hsoft _ _ _ _ (convert_inv c s1 h1)

theorem cycleLoop_inv (c : Cfg) (hsoft : c.softLimit = true) (first second : Int)
    (h1 : 0 ≤ first) (h2 : 0 ≤ second) (rs : List Bool) :
    ∀ (d : Bool) (s : St), Inv c s → Inv c (cycleLoop c first second rs d s).state := by
  induction rs with
  | nil =>
    intro d s h
    exact h
  | cons pin rs ih =>
    intro d s h
    rw [cycleLoop]
    split_ifs
    · exact ih _ _ (loadStep_inv c hsoft second _ h2 h)
    · exact ih _ _ (loadStep_inv c hsoft first _ h1 h)
    · exact h

theorem startCycle_inv (c : Cfg) (hsoft : c.softLimit = true) (fuel : Nat) :
    ∀ s : St, Inv c s → Inv c (startCycle c fuel s).state := by
  induction fuel with
  | zero =>
    intro s h
    exact h
  | succ fuel ih =>
    intro s h
    rw [startCycle]
    apply Run.bind_inv (Inv c) _ _ (collectNumbers_inv c s h)
    intro s1 h1
    dsimp only
    split_ifs
    · apply Run.bind_inv (Inv c) _ _ (collectNumbers_inv c _ (convert_inv c s1 h1))
      intro s2 h2
      have hfirst : 0 ≤ (convert s1).passedInput := convert_nonneg s1 h1.2.2.1
      have hsecond : 0 ≤ (convert s2).passedInput := convert_nonneg s2 h2.2.2.1
      split_ifs
      · exact ih _ (convert_inv c s2 h2)
      · apply Run.bind_inv (Inv c)
        · exact cycleLoop_inv c hsoft _ _ hfirst hsecond _ _ _
            (loadStep_inv c hsoft _ _ hfirst (convert_inv c s2 h2))
        · intro s3 h3
          exact h3
      · exact h2
    · exact h1

theorem keySwitch_inv (c : Cfg) (hsoft : c.softLimit = true) (pressed : Char) (s : St)
    (h : Inv c s) : Inv c (keySwitch c pressed s).state := by
  unfold keySwitch
  split_ifs
  · exact saveMovements_inv c _ h
  · exact loadMovements_inv c hsoft _ h
  · exact startCycle_inv c hsoft _ _ h
  · exact h
  · exact loadStep_inv c hsoft _ _ (convert_nonneg _ h.2.2.1) (convert_inv c _ h)
  · exact h
  · exact h

theorem keypadInput_inv (c : Cfg) (hsoft : c.softLimit = true) (key : Char) (s : St)
    (hkey : key ∈ keymap) (h : Inv c s) : Inv c (keypadInput c key s).state := by
  unfold keypadInput
  split_ifs with a1 a2 a3
  · exact keySwitch_inv c hsoft _ _ h
  · exact keySwitch_inv c hsoft _ _ h
  · refine ⟨h.1, h.2.1, Arr3.set_codes _ _ _ h.2.2.1 ?_, h.2.2.2⟩
    rcases keymap_cases key hkey with e | e | e | e | e | e | e
    · exact absurd (Or.inr (Or.inr (Or.inr (Or.inr (Or.inr e))))) a1
    · exact absurd (Or.inr (Or.inr (Or.inr (Or.inr (Or.inl e))))) a1
    · exact absurd (Or.inl e) a1
    · exact absurd (Or.inr (Or.inl e)) a1
    · exact absurd (Or.inr (Or.inr (Or.inl e))) a1
    · exact absurd (Or.inr (Or.inr (Or.inr (Or.inl e)))) a1
    · exact e
  · exact h

theorem loop_inv (c : Cfg) (hsoft : c.softLimit = true) (p : Poll) (s : St)
    (hkey : p.key = NULL ∨ p.key ∈ keymap) (h : Inv c s) :
    Inv c (loop c p.knobRead p.limitSwitchPin p.key s).state := by
  unfold loop
  simp only
  have h1 : Inv c { manualPoll c p.knobRead p.limitSwitchPin s with keyPressed := p.key } :=
    manualPoll_inv c _ _ s h
  split_ifs with a
  · rcases hkey with e | e
    · exact absurd e a
    · exact keypadInput_inv c hsoft _ _ e h1
  · exact h1

theorem polls_inv (c : Cfg) (hsoft : c.softLimit = true) (ps : List Poll) :
    ∀ s : St, (∀ p ∈ ps, p.key = NULL ∨ p.key ∈ keymap) → Inv c s →
      Inv c (polls c ps s).state := by
  induction ps with
  | nil =>
    intro s _ h
    exact h
  | cons p ps ih =>
    intro s hps h
    rw [polls]
    apply Run.bind_inv (Inv c) _ _ (loop_inv c hsoft p s (hps p (List.mem_cons_self _ _)) h)
    intro s1 h1
    exact ih s1 (fun q hq => hps q (List.mem_cons_of_mem _ hq)) h1

/-- C3. With `softLimit` on and `clickLimit` not negative, in every state that the controller
reaches from `setup` by any sequence of rounds of `loop` (knob turns with the limit switch hit
or released, direct moves, save, load and cycle sessions, on any store, with any keys of the
keypad pressed and any samples of the knob button), returned to the main loop or blocked
inside a session, the position lies in `[0, clickLimit]`, and so does every step number that
`moveMotor` has printed on the way. -/
theorem position_within_bounds (c : Cfg) (hsoft : c.softLimit = true)
    (hlimit : 0 ≤ c.clickLimit) (eeprom : Int → Int) (keys : List Char) (rotary : List Bool)
    (homing : Nat) (ps : List Poll) (hkeys : ∀ k ∈ keys, k ∈ keymap)
    (hps : ∀ p ∈ ps, p.key = NULL ∨ p.key ∈ keymap) :
    0 ≤ (polls c ps (setup eeprom keys rotary homing)).state.countSteps ∧
    (polls c ps (setup eeprom keys rotary homing)).state.countSteps ≤ c.clickLimit ∧
    ∀ x ∈ (polls c ps (setup eeprom keys rotary homing)).state.stepLog,
      0 ≤ x ∧ x ≤ c.clickLimit := by
  have hinit : Inv c (setup eeprom keys rotary homing) :=
    ⟨⟨le_refl 0, hlimit⟩, fun x hx => absurd hx (List.not_mem_nil x),
      ⟨Or.inl rfl, Or.inl rfl, Or.inl rfl⟩, hkeys⟩
  obtain ⟨⟨h0, hL⟩, hlog, -⟩ := polls_inv c hsoft ps _ hps hinit
  exact ⟨h0, hL, hlog⟩

/-- Witness of C3: with the soft limit on, after a click, the moves `5*` and `50*` and a load
of key 7 from a store as delivered, the position is 5. -/
theorem position_within_bounds_witness :
    (polls { userVariables with softLimit := true } softLimitPolls
      (setup (fun _ => 255) ['7', '*'] [] 0)).state.countSteps = 5 ∧
    (polls { userVariables with softLimit := true } softLimitPolls
      (setup (fun _ => 255) ['7', '*'] [] 0)).state.countSteps ≤ 11 :=
  ⟨by decide,
    (position_within_bounds { userVariables with softLimit := true } rfl (by decide)
      (fun _ => 255) ['7', '*'] [] 0 softLimitPolls (by decide) (by decide)).2.1⟩

/-! ## Cycling -/

theorem startCycle_cancel_first (c : Cfg) (fuel : Nat) (s s1 : St)
    (h1 : collectNumbers s = .ok s1) (hk1 : s1.keyPressed = '#') :
    startCycle c (fuel + 1) s = .ok s1 := by
  rw [startCycle, h1]
  simp only [Run.bind]
  rw [if_neg (not_not.mpr hk1)]

theorem startCycle_cancel_second (c : Cfg) (fuel : Nat) (s s1 s2 : St)
    (h1 : collectNumbers s = .ok s1) (hk1 : s1.keyPressed ≠ '#')
    (h2 : collectNumbers (convert s1) = .ok s2) (hk2 : s2.keyPressed = '#') :
    startCycle c (fuel + 1) s = .ok s2 := by
  rw [startCycle, h1]
  simp only [Run.bind]
  rw [if_pos hk1]
  have h2' : collectNumbers { convert s1 with countkeyPressed := 0 } = .ok s2 := h2
  simp only [h2', Run.bind]
  rw [if_neg (not_not.mpr hk2)]

/-- The round of `CycleMovement` in which both prompts are answered with numbers: the pair is
tested, and the function jumps back to the label or moves to the first number and cycles. -/
theorem startCycle_pair (c : Cfg) (fuel : Nat) (s s1 s2 : St)
    (h1 : collectNumbers s = .ok s1) (hk1 : s1.keyPressed ≠ '#')
    (h2 : collectNumbers (convert s1) = .ok s2) (hk2 : s2.keyPressed ≠ '#') :
    startCycle c (fuel + 1) s =
      if (convert s1).passedInput = (convert s2).passedInput ∨
          (((convert s1).passedInput > c.clickLimit ∨
            (convert s2).passedInput > c.clickLimit) ∧ c.softLimit = true) then
        startCycle c fuel { convert s2 with notes := s2.notes ++ [Note.cycleRejected] }
      else
        (cycleLoop c (convert s1).passedInput (convert s2).passedInput s2.rotary false
          { loadStep c (convert s1).passedInput { convert s2 with period := motorSpeed } with
            period := cycleSpeed }).bind fun t => .ok { t with period := motorSpeed } := by
  rw [startCycle, h1]
  simp only [Run.bind]
  rw [if_pos hk1]
  have h2' : collectNumbers { convert s1 with countkeyPressed := 0 } = .ok s2 := h2
  simp only [h2', Run.bind]
  rw [if_pos hk2]
  have hrot : ∀ (x : Int) (u : St), (loadStep c x u).rotary = u.rotary := by
    intro x u
    unfold loadStep
    split_ifs <;> rfl
  split_ifs with a
  · rfl
  · simp only [hrot]
    rfl


theorem loadStep_executed (c : Cfg) (x : Int) (s : St) (hk : s.keyPressed ≠ '#')
    (hx : x ≤ c.clickLimit ∨ c.softLimit = false) :
    loadStep c x s = moveMotor { s with
      totalTurn := c.stepsPerTurn * (s.countSteps - x), countSteps := x } := by
  unfold loadStep
  rw [if_neg hk, if_pos hx]

/-- The loop of `CycleMovement` on `n` samples of the released button: `n` moves, to the two
numbers in turn. It ends when the button is sampled pressed, and is blocked in the loop when
the samples are used up. -/
theorem cycleLoop_run (c : Cfg) (first second : Int)
    (h1 : first ≤ c.clickLimit ∨ c.softLimit = false)
    (h2 : second ≤ c.clickLimit ∨ c.softLimit = false) (n : Nat) :
    ∀ (d : Bool) (s : St), s.keyPressed ≠ '#' →
      s.countSteps = (if d = false then first else second) →
      (∀ rs : List Bool, ∃ t,
        cycleLoop c first second (List.replicate n true ++ false :: rs) d s = .ok t ∧
        t.stepLog = s.stepLog ++ alternation (if d = false then second else first)
          (if d = false then first else second) n ∧
        t.moved.length = s.moved.length + n ∧
        t.countSteps = (if n % 2 = 0 then (if d = false then first else second)
          else (if d = false then second else first)) ∧
        t.rotary = rs ∧ t.keys = s.keys) ∧
      (∃ t, cycleLoop c first second (List.replicate n true) d s = .wait t ∧
        t.stepLog = s.stepLog ++ alternation (if d = false then second else first)
          (if d = false then first else second) n ∧
        t.moved.length = s.moved.length + n ∧
        t.countSteps = (if n % 2 = 0 then (if d = false then first else second)
          else (if d = false then second else first))) := by
  induction n with
  | zero =>
    intro d s _ hpos
    refine ⟨fun rs => ⟨{ s with rotary := rs }, ?_, ?_, rfl, ?_, rfl, rfl⟩,
      ⟨s, rfl, ?_, rfl, ?_⟩⟩
    · simp [cycleLoop]
    · simp [alternation]
    · simpa using hpos
    · simp [alternation]
    · simpa using hpos
  | succ n ih =>
    intro d s hk hpos
    have hstep : ∀ (x : Int) (rs : List Bool), (x ≤ c.clickLimit ∨ c.softLimit = false) →
        (loadStep c x { s with rotary := rs }).keyPressed ≠ '#' ∧
        (loadStep c x { s with rotary := rs }).countSteps = x ∧
        (loadStep c x { s with rotary := rs }).stepLog = s.stepLog ++ [x] ∧
        (loadStep c x { s with rotary := rs }).moved.length = s.moved.length + 1 ∧
        (loadStep c x { s with rotary := rs }).keys = s.keys := by
      intro x rs hx
      rw [loadStep_executed c x { s with rotary := rs } hk hx]
      exact ⟨hk, rfl, rfl, by simp [moveMotor], rfl⟩
    have hpar : (n + 1) % 2 = 0 ↔ ¬ n % 2 = 0 := by omega
    cases d with
    | false =>
      simp only [if_true] at hpos ⊢
      constructor
      · intro rs
        obtain ⟨e1, e2, e3, e4, e5⟩ := hstep second (List.replicate n true ++ false :: rs) h2
        obtain ⟨t, ht, hl, hm, hp, hr, hks⟩ := (ih true _ e1 (by simpa using e2)).1 rs
        refine ⟨t, ?_, ?_, ?_, ?_, hr, ?_⟩
        · simp only [List.replicate_succ, List.cons_append, cycleLoop, if_true, Bool.not_false]
          exact ht
        · rw [hl, e3]
          simp [alternation]
        · rw [hm, e4]
          omega
        · rw [hp]
          simp only [Bool.true_eq_false, if_false]
          by_cases hn : n % 2 = 0
          · rw [if_pos hn, if_neg (by omega)]
          · rw [if_neg hn, if_pos (by omega)]
        · rw [hks, e5]
      · obtain ⟨e1, e2, e3, e4, e5⟩ := hstep second (List.replicate n true) h2
        obtain ⟨t, ht, hl, hm, hp⟩ := (ih true _ e1 (by simpa using e2)).2
        refine ⟨t, ?_, ?_, ?_, ?_⟩
        · simp only [List.replicate_succ, cycleLoop, if_true, Bool.not_false]
          exact ht
        · rw [hl, e3]
          simp [alternation]
        · rw [hm, e4]
          omega
        · rw [hp]
          simp only [Bool.true_eq_false, if_false]
          by_cases hn : n % 2 = 0
          · rw [if_pos hn, if_neg (by omega)]
          · rw [if_neg hn, if_pos (by omega)]
    | true =>
      simp only [Bool.true_eq_false, if_false] at hpos ⊢
      constructor
      · intro rs
        obtain ⟨e1, e2, e3, e4, e5⟩ := hstep first (List.replicate n true ++ false :: rs) h1
        obtain ⟨t, ht, hl, hm, hp, hr, hks⟩ := (ih false _ e1 (by simpa using e2)).1 rs
        refine ⟨t, ?_, ?_, ?_, ?_, hr, ?_⟩
        · simp only [List.replicate_succ, List.cons_append, cycleLoop, if_true,
            Bool.true_eq_false, if_false, Bool.not_true]
          exact ht
        · rw [hl, e3]
          simp [alternation]
        · rw [hm, e4]
          omega
        · rw [hp]
          simp only [if_true]
          by_cases hn : n % 2 = 0
          · rw [if_pos hn, if_neg (by omega)]
          · rw [if_neg hn, if_pos (by omega)]
        · rw [hks, e5]
      · obtain ⟨e1, e2, e3, e4, e5⟩ := hstep first (List.replicate n true) h1
        obtain ⟨t, ht, hl, hm, hp⟩ := (ih false _ e1 (by simpa using e2)).2
        refine ⟨t, ?_, ?_, ?_, ?_⟩
        · simp only [List.replicate_succ, cycleLoop, if_true, Bool.true_eq_false, if_false,
            Bool.not_true]
          exact ht
        · rw [hl, e3]
          simp [alternation]
        · rw [hm, e4]
          omega
        · rw [hp]
          simp only [if_true]
          by_cases hn : n % 2 = 0
          · rw [if_pos hn, if_neg (by omega)]
          · rw [if_neg hn, if_pos (by omega)]


theorem entry_length (ds : List Nat) (h : Digits ds) : 1 ≤ (entry ds).length := by
  unfold entry
  rw [List.length_append, List.length_map]
  have := h.1
  omega

/-- Both prompts of a cycle session are answered by typing a number. -/
theorem cycle_entries (d1 d2 : List Nat) (h1 : Digits d1) (h2 : Digits d2) (rest : List Char)
    (s : St) (hc : s.countkeyPressed = 0) (hn : s.numPressed.Codes)
    (hk : s.keys = entry d1 ++ (entry d2 ++ rest)) :
    ∃ s1 s2, collectNumbers s = .ok s1 ∧ s1.keyPressed ≠ '#' ∧
      collectNumbers (convert s1) = .ok s2 ∧ s2.keyPressed ≠ '#' ∧
      (convert s1).passedInput = decimal d1 ∧
      convert s2 = entered s (lastKey d2) (decimal d2) rest := by
  obtain ⟨s1, hs1, hl1, hc1⟩ := collect_convert d1 h1 _ s hc hn hk
  obtain ⟨s2, hs2, hl2, hc2⟩ := collect_convert d2 h2 rest
    (entered s (lastKey d1) (decimal d1) (entry d2 ++ rest)) rfl
    ⟨Or.inl rfl, Or.inl rfl, Or.inl rfl⟩ rfl
  refine ⟨s1, s2, hs1, ?_, ?_, ?_, ?_, ?_⟩
  · rw [hl1]
    exact (lastKey_ne d1 h1).1
  · rw [hc1]
    exact hs2
  · rw [hl2]
    exact (lastKey_ne d2 h2).1
  · rw [hc1]
    rfl
  · rw [hc2]
    rfl

/-- A pair that fails the test: `CycleMovement` starts again from its label, on the key
presses that follow, with nothing moved. -/
theorem CycleMovement_rejected (c : Cfg) (d1 d2 : List Nat) (h1 : Digits d1) (h2 : Digits d2)
    (rest : List Char) (s : St) (hc : s.countkeyPressed = 0) (hn : s.numPressed.Codes)
    (hk : s.keys = entry d1 ++ (entry d2 ++ rest))
    (hrej : decimal d1 = decimal d2 ∨
      (c.softLimit = true ∧ (c.clickLimit < decimal d1 ∨ c.clickLimit < decimal d2))) :
    CycleMovement c s = CycleMovement c
      { entered s (lastKey d2) (decimal d2) rest with
        notes := s.notes ++ [Note.cycleRejected] } := by
  obtain ⟨s1, s2, hs1, hk1, hs2, hk2, hv1, hconv⟩ := cycle_entries d1 d2 h1 h2 rest s hc hn hk
  have hnotes : s2.notes = s.notes := by
    have h := congrArg St.notes hconv
    exact h
  unfold CycleMovement
  rw [startCycle_pair c _ s s1 s2 hs1 hk1 hs2 hk2, hv1, hconv, hnotes]
  have hcond : decimal d1 = (entered s (lastKey d2) (decimal d2) rest).passedInput ∨
      ((decimal d1 > c.clickLimit ∨
        (entered s (lastKey d2) (decimal d2) rest).passedInput > c.clickLimit) ∧
        c.softLimit = true) := by
    rcases hrej with h | ⟨hs, h⟩
    · exact Or.inl h
    · exact Or.inr ⟨h, hs⟩
  rw [if_pos hcond]
  apply startCycle_fuel
  · show rest.length < s.keys.length
    rw [hk]
    have := entry_length d1 h1
    simp only [List.length_append]
    omega
  · show rest.length < rest.length + 1
    omega

/-- A pair that passes the test: `CycleMovement` moves to the first number and enters its
loop. -/
theorem CycleMovement_accepted (c : Cfg) (d1 d2 : List Nat) (h1 : Digits d1) (h2 : Digits d2)
    (rest : List Char) (s : St) (hc : s.countkeyPressed = 0) (hn : s.numPressed.Codes)
    (hk : s.keys = entry d1 ++ (entry d2 ++ rest))
    (hacc : ¬ (decimal d1 = decimal d2 ∨
      (c.softLimit = true ∧ (c.clickLimit < decimal d1 ∨ c.clickLimit < decimal d2)))) :
    CycleMovement c s =
      (cycleLoop c (decimal d1) (decimal d2) s.rotary false
        { moveMotor { entered s (lastKey d2) (decimal d2) rest with
            period := motorSpeed
            totalTurn := c.stepsPerTurn * (s.countSteps - decimal d1)
            countSteps := decimal d1 } with
          period := cycleSpeed }).bind fun t => .ok { t with period := motorSpeed } := by
  obtain ⟨s1, s2, hs1, hk1, hs2, hk2, hv1, hconv⟩ := cycle_entries d1 d2 h1 h2 rest s hc hn hk
  have hrot : s2.rotary = s.rotary := by
    have h := congrArg St.rotary hconv
    exact h
  unfold CycleMovement
  rw [startCycle_pair c _ s s1 s2 hs1 hk1 hs2 hk2, hv1, hconv, hrot]
  have hcond : ¬ (decimal d1 = (entered s (lastKey d2) (decimal d2) rest).passedInput ∨
      ((decimal d1 > c.clickLimit ∨
        (entered s (lastKey d2) (decimal d2) rest).passedInput > c.clickLimit) ∧
        c.softLimit = true)) := by
    intro h
    apply hacc
    rcases h with h | ⟨h, hs⟩
    · exact Or.inl h
    · exact Or.inr ⟨hs, h⟩
  rw [if_neg hcond]
  have hfirst : decimal d1 ≤ c.clickLimit ∨ c.softLimit = false := by
    by_cases hs : c.softLimit = true
    · left
      by_contra hgt
      exact hacc (Or.inr ⟨hs, Or.inl (by omega)⟩)
    · right
      simpa using hs
  rw [loadStep_executed c (decimal d1) _ (lastKey_ne d2 h2).1 hfirst]
  rfl


/-- C11. When both numbers of a cycle session are entered: if they are equal, or `softLimit`
is on and one of them is above `clickLimit`, nothing is moved and `CycleMovement` goes on as
if called afresh on the key presses that follow (both numbers are asked for again), with the
warning printed; in every other case it moves to the first number and enters its loop. -/
theorem cycle_validation (c : Cfg) (d1 d2 : List Nat) (rest : List Char) (s : St)
    (h1 : Digits d1) (h2 : Digits d2) (hc : s.countkeyPressed = 0) (hn : s.numPressed.Codes)
    (hk : s.keys = entry d1 ++ (entry d2 ++ rest)) :
    ((decimal d1 = decimal d2 ∨
        (c.softLimit = true ∧ (c.clickLimit < decimal d1 ∨ c.clickLimit < decimal d2))) →
      ∃ r, CycleMovement c s = CycleMovement c r ∧ r.keys = rest ∧ r.countkeyPressed = 0 ∧
        r.notes = s.notes ++ [Note.cycleRejected] ∧ r.moved = s.moved ∧
        r.stepLog = s.stepLog ∧ r.countSteps = s.countSteps ∧ r.rotary = s.rotary) ∧
    (¬ (decimal d1 = decimal d2 ∨
        (c.softLimit = true ∧ (c.clickLimit < decimal d1 ∨ c.clickLimit < decimal d2))) →
      ∃ t, CycleMovement c s =
          (cycleLoop c (decimal d1) (decimal d2) s.rotary false t).bind
            (fun u => .ok { u with period := motorSpeed }) ∧
        t.countSteps = decimal d1 ∧ t.stepLog = s.stepLog ++ [decimal d1] ∧
        t.moved = s.moved ++ [c.stepsPerTurn * (s.countSteps - decimal d1)] ∧
        t.keys = rest ∧ t.notes = s.notes) := by
  constructor
  · intro hrej
    exact ⟨_, CycleMovement_rejected c d1 d2 h1 h2 rest s hc hn hk hrej, rfl, rfl, rfl, rfl,
      rfl, rfl, rfl⟩
  · intro hacc
    exact ⟨_, CycleMovement_accepted c d1 d2 h1 h2 rest s hc hn hk hacc, rfl, rfl, rfl, rfl,
      rfl⟩

/-- Witness of C11: (10, 10) is rejected; (10, 20) is rejected with the soft limit on and
`clickLimit` 11, and accepted with `clickLimit` 25. -/
theorem cycle_validation_witness :
    (∃ r, CycleMovement userVariables cycleSame = CycleMovement userVariables r ∧
      r.keys = [] ∧ r.moved = []) ∧
    (∃ r, CycleMovement { userVariables with softLimit := true } cycleTenTwenty =
        CycleMovement { userVariables with softLimit := true } r ∧
      r.keys = [] ∧ r.moved = []) ∧
    (∃ t, CycleMovement { userVariables with softLimit := true, clickLimit := 25 }
        cycleTenTwenty =
        (cycleLoop { userVariables with softLimit := true, clickLimit := 25 } 10 20
          [true, true, false] false t).bind (fun u => .ok { u with period := motorSpeed }) ∧
      t.countSteps = 10) := by
  refine ⟨?_, ?_, ?_⟩
  · obtain ⟨r, hr, hkeys, -, -, hm, -⟩ :=
      (cycle_validation userVariables [1, 0] [1, 0] [] cycleSame ⟨by decide, by decide, by decide⟩
        ⟨by decide, by decide, by decide⟩ rfl ⟨Or.inl rfl, Or.inl rfl, Or.inl rfl⟩ rfl).1
        (Or.inl rfl)
    exact ⟨r, hr, hkeys, hm⟩
  · obtain ⟨r, hr, hkeys, -, -, hm, -⟩ :=
      (cycle_validation { userVariables with softLimit := true } [1, 0] [2, 0] []
        cycleTenTwenty ⟨by decide, by decide, by decide⟩ ⟨by decide, by decide, by decide⟩ rfl
        ⟨Or.inl rfl, Or.inl rfl, Or.inl rfl⟩ rfl).1 (Or.inr ⟨rfl, Or.inr (by decide)⟩)
    exact ⟨r, hr, hkeys, hm⟩
  · obtain ⟨t, ht, hp, -⟩ :=
      (cycle_validation { userVariables with softLimit := true, clickLimit := 25 } [1, 0]
        [2, 0] [] cycleTenTwenty ⟨by decide, by decide, by decide⟩
        ⟨by decide, by decide, by decide⟩ rfl ⟨Or.inl rfl, Or.inl rfl, Or.inl rfl⟩ rfl).2
        (by decide)
    exact ⟨t, ht, hp⟩

/-- C12. After a pair is accepted, when the knob button is sampled released `n` times and then
pressed, `CycleMovement` returns; the step numbers printed are the first number and then `n`
numbers in turn, beginning with the second; `stepper.move` is called once for each of them
and no more; the position at the end is the second number when `n` is odd and the first when
`n` is even; no further sample of the button is read. When the button is sampled released
`n` times and no more samples come, it is blocked in the loop after the same moves. -/
theorem cycle_alternates (c : Cfg) (d1 d2 : List Nat) (rest : List Char) (s : St) (n : Nat)
    (h1 : Digits d1) (h2 : Digits d2) (hc : s.countkeyPressed = 0) (hn : s.numPressed.Codes)
    (hk : s.keys = entry d1 ++ (entry d2 ++ rest))
    (hacc : ¬ (decimal d1 = decimal d2 ∨
      (c.softLimit = true ∧ (c.clickLimit < decimal d1 ∨ c.clickLimit < decimal d2)))) :
    (∀ rs : List Bool, s.rotary = List.replicate n true ++ false :: rs →
      ∃ t, CycleMovement c s = .ok t ∧
        t.stepLog = s.stepLog ++ decimal d1 :: alternation (decimal d2) (decimal d1) n ∧
        t.moved.length = s.moved.length + (n + 1) ∧
        t.countSteps = (if n % 2 = 0 then decimal d1 else decimal d2) ∧
        t.rotary = rs ∧ t.keys = rest) ∧
    (s.rotary = List.replicate n true →
      ∃ t, CycleMovement c s = .wait t ∧
        t.stepLog = s.stepLog ++ decimal d1 :: alternation (decimal d2) (decimal d1) n ∧
        t.moved.length = s.moved.length + (n + 1) ∧
        t.countSteps = (if n % 2 = 0 then decimal d1 else decimal d2)) := by
  have hrun := CycleMovement_accepted c d1 d2 h1 h2 rest s hc hn hk hacc
  have hfirst : decimal d1 ≤ c.clickLimit ∨ c.softLimit = false := by
    by_cases hs : c.softLimit = true
    · left
      by_contra hgt
      exact hacc (Or.inr ⟨hs, Or.inl (by omega)⟩)
    · right
      simpa using hs
  have hsecond : decimal d2 ≤ c.clickLimit ∨ c.softLimit = false := by
    by_cases hs : c.softLimit = true
    · left
      by_contra hgt
      exact hacc (Or.inr ⟨hs, Or.inr (by omega)⟩)
    · right
      simpa using hs
  have hloop := cycleLoop_run c (decimal d1) (decimal d2) hfirst hsecond n false
    { moveMotor { entered s (lastKey d2) (decimal d2) rest with
        period := motorSpeed
        totalTurn := c.stepsPerTurn * (s.countSteps - decimal d1)
        countSteps := decimal d1 } with
      period := cycleSpeed } (lastKey_ne d2 h2).1 rfl
  simp only [if_true] at hloop
  constructor
  · intro rs hr
    obtain ⟨t, ht, hl, hm, hp, hrot, hkeys⟩ := hloop.1 rs
    refine ⟨{ t with period := motorSpeed }, ?_, ?_, ?_, hp, hrot, hkeys⟩
    · rw [hrun, hr, ht]
      rfl
    · show t.stepLog = _
      rw [hl]
      simp [moveMotor, entered]
    · show t.moved.length = _
      rw [hm]
      simp [moveMotor, entered]
      omega
  · intro hr
    obtain ⟨t, ht, hl, hm, hp⟩ := hloop.2
    refine ⟨t, ?_, ?_, ?_, hp⟩
    · rw [hrun, hr, ht]
      rfl
    · rw [hl]
      simp [moveMotor, entered]
    · rw [hm]
      simp [moveMotor, entered]
      omega

/-- Witness of C12: the pair (10, 20), the button released twice and then pressed: the moves
go to 10, 20, 10. -/
theorem cycle_alternates_witness :
    ∃ t, CycleMovement userVariables cycleTenTwenty = .ok t ∧ t.stepLog = [10, 20, 10] ∧
      t.countSteps = 10 := by
  obtain ⟨t, ht, hl, -, hp, -⟩ :=
    (cycle_alternates userVariables [1, 0] [2, 0] [] cycleTenTwenty 2
      ⟨by decide, by decide, by decide⟩ ⟨by decide, by decide, by decide⟩ rfl
      ⟨Or.inl rfl, Or.inl rfl, Or.inl rfl⟩ rfl (by decide)).1 [] rfl
  exact ⟨t, ht, hl, hp⟩

theorem collectKeys_rotary (ks : List Char) :
    ∀ s : St, (collectKeys ks s).state.rotary = s.rotary := by
  induction ks with
  | nil =>
    intro s
    unfold collectKeys
    split_ifs <;> rfl
  | cons k ks ih =>
    intro s
    unfold collectKeys
    simp only
    split_ifs
    all_goals first
      | rfl
      | exact ih _

theorem collectNumbers_rotary (s s1 : St) (h : collectNumbers s = .ok s1) :
    s1.rotary = s.rotary := by
  have := collectKeys_rotary s.keys s
  unfold collectNumbers at h
  rw [h] at this
  exact this

/-- C13, refuted as stated. `#` pressed at the first prompt of a cycle session, or at the
second after the number 5: `CycleMovement` returns, no pair was accepted, nothing was moved
and no sample of the knob button was read. -/
theorem cycle_cancel_leaves_counterexample :
    (CycleMovement userVariables cycleCancelled).returned = true ∧
    (CycleMovement userVariables cycleCancelled).state.stepLog = [] ∧
    (CycleMovement userVariables cycleCancelled).state.rotary = [true, false] ∧
    (CycleMovement userVariables cycleCancelledLate).returned = true ∧
    (CycleMovement userVariables cycleCancelledLate).state.stepLog = [] ∧
    (CycleMovement userVariables cycleCancelledLate).state.rotary = [true, false] := by
  decide

/-- C13, amended. When the first prompt of a cycle session is left with `#` (state `s1`), or
the first prompt is answered and the second is left with `#` (state `s2`), whatever was typed
before, `CycleMovement` returns in that state: nothing was moved, the position is as before
and no sample of the knob button was read. -/
theorem cycle_cancel_returns (c : Cfg) (s s1 : St) (h1 : collectNumbers s = .ok s1) :
    (s1.keyPressed = '#' →
      CycleMovement c s = .ok s1 ∧ s1.moved = s.moved ∧ s1.stepLog = s.stepLog ∧
        s1.countSteps = s.countSteps ∧ s1.rotary = s.rotary) ∧
    (∀ s2 : St, s1.keyPressed ≠ '#' → collectNumbers (convert s1) = .ok s2 →
      s2.keyPressed = '#' →
      CycleMovement c s = .ok s2 ∧ s2.moved = s.moved ∧ s2.stepLog = s.stepLog ∧
        s2.countSteps = s.countSteps ∧ s2.rotary = s.rotary) := by
  obtain ⟨p1, m1, l1, -⟩ := collectNumbers_untouched s s1 h1
  have r1 := collectNumbers_rotary s s1 h1
  constructor
  · intro hk
    exact ⟨startCycle_cancel_first c _ s s1 h1 hk, m1, l1, p1, r1⟩
  · intro s2 hk1 h2 hk2
    obtain ⟨p2, m2, l2, -⟩ := collectNumbers_untouched (convert s1) s2 h2
    have r2 := collectNumbers_rotary (convert s1) s2 h2
    refine ⟨startCycle_cancel_second c _ s s1 s2 h1 hk1 h2 hk2, ?_, ?_, ?_, ?_⟩
    · rw [m2]
      exact m1
    · rw [l2]
      exact l1
    · rw [p2]
      exact p1
    · rw [r2]
      exact r1

/-- Witness of C13: `#` at the first prompt. -/
theorem cycle_cancel_returns_witness :
    CycleMovement userVariables cycleCancelled = .ok (collectNumbers cycleCancelled).state :=
  ((cycle_cancel_returns userVariables cycleCancelled (collectNumbers cycleCancelled).state
    rfl).1 (by decide)).1

/-! ## Cancelling with # -/

theorem saveMovements_cancel (c : Cfg) (s s1 : St)
    (h1 : collectNumbers { s with comingFromSave := true } = .ok s1)
    (hk : s1.keyPressed = '#') :
    saveMovements c s =
      .ok { s1 with countkeyPressed := 0, keyPressed := NULL, comingFromSave := false } := by
  unfold saveMovements
  rw [h1]
  simp only [Run.bind]
  rw [if_neg (not_not.mpr hk)]

/-- After `#` the loop of `loadMovements` moves nothing, whatever the store holds. -/
theorem loadLoop_cancel (c : Cfg) (saveLocation : Int) (s0 : St) (n : Nat) :
    ∀ (i : Int) (s : St),
      (s.keyPressed = '#' ∧ s.moved = s0.moved ∧ s.stepLog = s0.stepLog ∧
        s.countSteps = s0.countSteps ∧ s.writes = s0.writes ∧ s.eeprom = s0.eeprom) →
      (fun t : St => t.keyPressed = '#' ∧ t.moved = s0.moved ∧ t.stepLog = s0.stepLog ∧
        t.countSteps = s0.countSteps ∧ t.writes = s0.writes ∧ t.eeprom = s0.eeprom)
        (loadLoop c saveLocation n i s).state := by
  induction n with
  | zero =>
    intro i s h
    exact h
  | succ n ih =>
    intro i s h
    have hstep : loadStep c (EEPROM.read s i) s = s := by
      unfold loadStep
      rw [if_pos h.1]
    rw [loadLoop]
    dsimp only
    split_ifs
    · exact h
    · rw [hstep]
      apply Run.bind_inv _ _ _ _ (ih (i + 1))
      unfold waitForKey
      split
      · exact h
      · exact h
    · rw [hstep]
      exact ih (i + 1) s h
    · exact ih (i + 1) s h

theorem loadLoop_returns (c : Cfg) (hdelay : c.loadDelay = false) (saveLocation : Int)
    (n : Nat) : ∀ (i : Int) (s : St), (loadLoop c saveLocation n i s).returned = true := by
  induction n with
  | zero =>
    intro i s
    rfl
  | succ n ih =>
    intro i s
    rw [loadLoop]
    dsimp only
    split_ifs with a b d
    · rfl
    · rw [hdelay] at d
      cases d
    · exact ih (i + 1) _
    · exact ih (i + 1) s


theorem loadStep_keys (c : Cfg) (x : Int) (s : St) : (loadStep c x s).keys = s.keys := by
  unfold loadStep
  split_ifs <;> rfl

/-- With the delay between movements on, the loop of `loadMovements` returns when a key press
is to come for every round left. -/
theorem loadLoop_returns_keys (c : Cfg) (saveLocation : Int) (n : Nat) :
    ∀ (i : Int) (s : St), n ≤ s.keys.length →
      (loadLoop c saveLocation n i s).returned = true := by
  induction n with
  | zero =>
    intro i s _
    rfl
  | succ n ih =>
    intro i s hlen
    rw [loadLoop]
    dsimp only
    split_ifs with a b d
    · rfl
    · unfold waitForKey
      rw [loadStep_keys]
      cases hks : s.keys with
      | nil =>
        rw [hks] at hlen
        simp at hlen
      | cons k ks =>
        rw [hks] at hlen
        simp only [Run.bind]
        exact ih (i + 1) _ (by simpa using hlen)
    · simp only [Run.bind]
      exact ih (i + 1) _ (by rw [loadStep_keys]; omega)
    · exact ih (i + 1) s (by omega)

/-- C14. `#` at the key prompt of a save session, whatever was typed before: `saveMovements`
returns, nothing was written and the position is as before. `#` at the key prompt of a load
session: nothing is moved or written, whatever the store holds, the position is as before, and
`loadMovements` returns (with the delay between movements on, when a key press is to come for
each slot of the block). `#` at the first or at the second prompt of a cycle session:
`CycleMovement` returns, nothing was moved and the position is as before. -/
theorem cancel_has_no_effect (c : Cfg) (s s1 : St) :
    (collectNumbers { s with comingFromSave := true } = .ok s1 → s1.keyPressed = '#' →
      ∃ t, saveMovements c s = .ok t ∧ t.writes = s.writes ∧ t.eeprom = s.eeprom ∧
        t.moved = s.moved ∧ t.countSteps = s.countSteps) ∧
    (collectNumbers s = .ok s1 → s1.keyPressed = '#' →
      (loadMovements c s).state.moved = s.moved ∧
      (loadMovements c s).state.stepLog = s.stepLog ∧
      (loadMovements c s).state.countSteps = s.countSteps ∧
      (loadMovements c s).state.writes = s.writes ∧
      (c.loadDelay = false ∨ c.blockLimit.toNat ≤ s1.keys.length →
        (loadMovements c s).returned = true)) ∧
    (collectNumbers s = .ok s1 → s1.keyPressed = '#' →
      CycleMovement c s = .ok s1 ∧ s1.moved = s.moved ∧ s1.countSteps = s.countSteps) ∧
    (∀ s2 : St, collectNumbers s = .ok s1 → s1.keyPressed ≠ '#' →
      collectNumbers (convert s1) = .ok s2 → s2.keyPressed = '#' →
      CycleMovement c s = .ok s2 ∧ s2.moved = s.moved ∧ s2.countSteps = s.countSteps) := by
  refine ⟨?_, ?_, ?_, ?_⟩
  · intro h1 hk
    obtain ⟨p1, m1, -, e1, w1, -⟩ :=
      collectNumbers_untouched { s with comingFromSave := true } s1 h1
    exact ⟨_, saveMovements_cancel c s s1 h1 hk, w1, e1, m1, p1⟩
  · intro h1 hk
    obtain ⟨p1, m1, l1, e1, w1, -⟩ := collectNumbers_untouched s s1 h1
    have hrun : loadMovements c s =
        loadLoop c (c.blockLimit * (convert s1).passedInput) c.blockLimit.toNat
          (c.blockLimit * (convert s1).passedInput) (convert s1) := by
      unfold loadMovements
      rw [h1]
      rfl
    rw [hrun]
    obtain ⟨-, m, l, p, w, -⟩ := loadLoop_cancel c (c.blockLimit * (convert s1).passedInput)
      s c.blockLimit.toNat (c.blockLimit * (convert s1).passedInput) (convert s1)
      ⟨hk, m1, l1, p1, w1, e1⟩
    refine ⟨m, l, p, w, ?_⟩
    intro hret
    rcases hret with hd | hkeys
    · exact loadLoop_returns c hd _ _ _ _
    · exact loadLoop_returns_keys c _ _ _ _ hkeys
  · intro h1 hk
    obtain ⟨p1, m1, -⟩ := collectNumbers_untouched s s1 h1
    exact ⟨startCycle_cancel_first c _ s s1 h1 hk, m1, p1⟩
  · intro s2 h1 hk1 h2 hk2
    obtain ⟨p1, m1, -⟩ := collectNumbers_untouched s s1 h1
    obtain ⟨p2, m2, -⟩ := collectNumbers_untouched (convert s1) s2 h2
    refine ⟨startCycle_cancel_second c _ s s1 s2 h1 hk1 h2 hk2, ?_, ?_⟩
    · rw [m2]
      exact m1
    · rw [p2]
      exact p1

/-- Witness of C14: `1`, `#` at the key prompt of a save session and `1`, `2`, `#` at the key
prompt of a load session on a store as delivered. -/
theorem cancel_has_no_effect_witness :
    (∃ t, saveMovements userVariables saveCancelled = .ok t ∧ t.writes = []) ∧
    (loadMovements userVariables loadCancelled).state.moved = [] ∧
    (loadMovements userVariables loadCancelled).returned = true := by
  obtain ⟨t, ht, hw, -⟩ :=
    (cancel_has_no_effect userVariables saveCancelled
      (collectNumbers { saveCancelled with comingFromSave := true }).state).1 rfl (by decide)
  obtain ⟨hm, -, -, -, hret⟩ :=
    (cancel_has_no_effect userVariables loadCancelled
      (collectNumbers loadCancelled).state).2.1 rfl (by decide)
  exact ⟨⟨t, ht, hw⟩, hm, hret (Or.inl rfl)⟩

/-! ## Pending digits, direction flag and addresses -/

/-- C15, the code at the failing input. A cycle session is started with `D` and left with `#`
after the digit `1`: `keypadInput` returns to the main loop with `countkeyPressed = 1`. The
keys `5`, `*` pressed next in the main menu move the nozzle to step 15, not to step 5. -/
theorem cycle_cancel_keeps_digit :
    (polls userVariables [⟨0, true, 'D'⟩] digitThenCancel).returned = true ∧
    (polls userVariables [⟨0, true, 'D'⟩] digitThenCancel).state.countkeyPressed = 1 ∧
    (polls userVariables cycleThenMove digitThenCancel).returned = true ∧
    (polls userVariables cycleThenMove digitThenCancel).state.stepLog = [15] ∧
    (polls userVariables cycleThenMove digitThenCancel).state.countSteps = 15 := by
  decide

/-- C16, refuted as stated. After `setup`, with the limit switch hit, a counter-clockwise turn
of the knob takes the position from 0 to 1, and `directionGoing` is 1 (clockwise) after this
move that increased the position. -/
theorem direction_after_limit_step_counterexample :
    homed.countSteps = 0 ∧
    (manualPoll userVariables 4000 false homed).countSteps = 1 ∧
    (manualPoll userVariables 4000 false homed).stepLog = [1] ∧
    (manualPoll userVariables 4000 false homed).directionGoing = 1 := by
  decide

theorem knobTurn_free_direction (c : Cfg) (newKnob : Int) (s : St) :
    (knobTurn c newKnob true s).directionGoing =
      if newKnob - s.knobPosition > 0 ∧ s.countSteps > 0 then 1
      else if newKnob - s.knobPosition < 0 ∧ s.countSteps < c.clickLimit then 0
      else s.directionGoing := by
  unfold knobTurn
  simp only [Bool.true_eq_false, if_false]
  split_ifs <;> first | rfl | omega

theorem knobTurn_hit_direction (c : Cfg) (newKnob : Int) (s : St) :
    (knobTurn c newKnob false s).directionGoing = s.directionGoing := by
  unfold knobTurn
  simp only [if_true]
  split_ifs with a b
  · rw [a.1]
    rfl
  · rw [b.1]
    rfl
  · rfl

theorem manualPoll_direction (c : Cfg) (knobRead : Int) (pin : Bool) (s : St) :
    (manualPoll c knobRead pin s).directionGoing =
      (knobTurn c (knobRead.tdiv (-4)) pin s).directionGoing := by
  unfold manualPoll
  simp only
  split_ifs <;> cases pin <;> simp [knobTurn] <;> split_ifs <;> rfl

/-- C16, amended. After a poll with the limit switch released that lowers the position,
`directionGoing` is 1; after one that raises it, `directionGoing` is 0; one that leaves the
position leaves `directionGoing`. A poll with the limit switch hit leaves `directionGoing` as
it was, whether it steps or not. -/
theorem direction_after_manual_step (c : Cfg) (knobRead : Int) (s : St) :
    ((manualPoll c knobRead true s).countSteps < s.countSteps →
      (manualPoll c knobRead true s).directionGoing = 1) ∧
    (s.countSteps < (manualPoll c knobRead true s).countSteps →
      (manualPoll c knobRead true s).directionGoing = 0) ∧
    ((manualPoll c knobRead true s).countSteps = s.countSteps →
      (manualPoll c knobRead true s).directionGoing = s.directionGoing) ∧
    (manualPoll c knobRead false s).directionGoing = s.directionGoing := by
  rw [manualPoll_countSteps, knobTurn_free_countSteps, manualPoll_direction,
    knobTurn_free_direction, manualPoll_direction, knobTurn_hit_direction]
  refine ⟨?_, ?_, ?_, rfl⟩
  · intro h
    split_ifs at h ⊢ <;> first | rfl | omega
  · intro h
    split_ifs at h ⊢ <;> first | rfl | omega
  · intro h
    split_ifs at h ⊢ <;> first | rfl | omega

/-- Witness of C16: after `setup`, with the limit switch released, the knob is turned
counter-clockwise by one click. -/
theorem direction_after_manual_step_witness :
    (manualPoll userVariables 4000 true homed).directionGoing = 0 :=
  (direction_after_manual_step userVariables 4000 homed).2.1 (by decide)

/-- C18, the code at the failing input. A save session on key 205 writes the addresses 1025 to
1029, and one on key 999 the addresses 4995 to 4999: all beyond the 1024 bytes. -/
theorem save_address_beyond_storage :
    (saveMovements userVariables saveKey205).state.writes.map Prod.fst =
      [1025, 1026, 1027, 1028, 1029] ∧
    (saveMovements userVariables saveKey999).state.writes.map Prod.fst =
      [4995, 4996, 4997, 4998, 4999] ∧
    (∀ w ∈ (saveMovements userVariables saveKey205).state.writes, eepromSize ≤ w.1) ∧
    (∀ w ∈ (saveMovements userVariables saveKey999).state.writes, eepromSize ≤ w.1) := by
  decide

/-! ## Moves and position -/

theorem ledger_move (c : Cfg) (s : St) (p : Int) (dir : Int) :
    ledger c (moveMotor { s with
      totalTurn := c.stepsPerTurn * (s.countSteps - p), countSteps := p,
      directionGoing := dir }) = ledger c s := by
  simp only [ledger, moveMotor, List.sum_append, List.sum_cons, List.sum_nil]
  ring

theorem ledger_CWturn (c : Cfg) (s : St) : ledger c (CWturn c s) = ledger c s := by
  have h := ledger_move c s (s.countSteps - 1) 1
  have e : c.stepsPerTurn * (s.countSteps - (s.countSteps - 1)) = c.stepsPerTurn := by ring
  rw [e] at h
  exact h

theorem ledger_CCWturn (c : Cfg) (s : St) : ledger c (CCWturn c s) = ledger c s := by
  have h := ledger_move c s (s.countSteps + 1) 0
  have e : c.stepsPerTurn * (s.countSteps - (s.countSteps + 1)) = c.stepsPerTurn * -1 := by
    ring
  rw [e] at h
  exact h

theorem ledger_loadStep (c : Cfg) (x : Int) (s : St) :
    ledger c (loadStep c x s) = ledger c s := by
  unfold loadStep
  split_ifs
  · rfl
  · exact ledger_move c s x s.directionGoing
  · rfl

theorem ledger_knobTurn (c : Cfg) (newKnob : Int) (pin : Bool) (s : St) :
    ledger c (knobTurn c newKnob pin s) = ledger c s := by
  unfold knobTurn
  split_ifs
  · exact ledger_CCWturn c s
  · exact ledger_CWturn c s
  · rfl
  · exact ledger_CWturn c s
  · rfl
  · exact ledger_CCWturn c s
  · rfl
  · rfl

theorem ledger_manualPoll (c : Cfg) (knobRead : Int) (pin : Bool) (s : St) :
    ledger c (manualPoll c knobRead pin s) = ledger c s := by
  unfold manualPoll
  simp only
  have h := ledger_knobTurn c (knobRead.tdiv (-4)) pin
    { s with passedInput := 0, led := decide (s.countSteps = 0 ∨ s.countSteps ≥ c.clickLimit) }
  split_ifs
  · exact h
  · exact h

theorem ledger_collectNumbers (c : Cfg) (s : St) :
    ledger c (collectNumbers s).state = ledger c s := by
  obtain ⟨hp, hm, -⟩ := collectKeys_untouched s.keys s
  unfold ledger collectNumbers
  rw [hp, hm]

theorem ledger_waitForKey (c : Cfg) (s : St) : ledger c (waitForKey s).state = ledger c s := by
  unfold waitForKey
  split <;> rfl

theorem ledger_saveLoop (c : Cfg) (v : Int) (n : Nat) :
    ∀ (loc : Int) (s : St), ledger c s = v → ledger c (saveLoop n loc s).state = v := by
  induction n with
  | zero =>
    intro loc s h
    exact h
  | succ n ih =>
    intro loc s h
    rw [saveLoop]
    apply Run.bind_inv (fun t => ledger c t = v)
    · split_ifs
      · apply Run.bind_inv (fun t => ledger c t = v) _ _
          ((ledger_collectNumbers c s).trans h)
        intro s1 h1
        split_ifs
        · exact h1
        · exact h1
      · exact h
    · intro s1 h1
      split_ifs
      · exact ih _ _ h1
      · exact ih _ _ h1

theorem ledger_saveMovements (c : Cfg) (v : Int) (s : St) (h : ledger c s = v) :
    ledger c (saveMovements c s).state = v := by
  unfold saveMovements
  apply Run.bind_inv (fun t => ledger c t = v) _ _
    ((ledger_collectNumbers c { s with comingFromSave := true }).trans h)
  intro s1 h1
  apply Run.bind_inv (fun t => ledger c t = v)
  · split_ifs
    · exact ledger_saveLoop c v _ _ _ h1
    · exact h1
  · intro s2 h2
    exact h2

theorem ledger_loadLoop (c : Cfg) (v : Int) (saveLocation : Int) (n : Nat) :
    ∀ (i : Int) (s : St), ledger c s = v →
      ledger c (loadLoop c saveLocation n i s).state = v := by
  induction n with
  | zero =>
    intro i s h
    exact h
  | succ n ih =>
    intro i s h
    rw [loadLoop]
    have hstep : ledger c (loadStep c (EEPROM.read s i) s) = v :=
      (ledger_loadStep c _ s).trans h
    dsimp only
    split_ifs
    · exact h
    · exact Run.bind_inv (fun t => ledger c t = v) _ _
        ((ledger_waitForKey c _).trans hstep) (ih (i + 1))
    · exact Run.bind_inv (fun t => ledger c t = v) (.ok _) _ hstep (ih (i + 1))
    · exact ih (i + 1) s h

theorem ledger_loadMovements (c : Cfg) (v : Int) (s : St) (h : ledger c s = v) :
    ledger c (loadMovements c s).state = v := by
  unfold loadMovements
  apply Run.bind_inv (fun t => ledger c t = v) _ _ ((ledger_collectNumbers c s).trans h)
  intro s1 h1
  exact ledger_loadLoop c v _ _ _ _ h1

theorem ledger_cycleLoop (c : Cfg) (v : Int) (first second : Int) (rs : List Bool) :
    ∀ (d : Bool) (s : St), ledger c s = v →
      ledger c (cycleLoop c first second rs d s).state = v := by
  induction rs with
  | nil =>
    intro d s h
    exact h
  | cons pin rs ih =>
    intro d s h
    rw [cycleLoop]
    split_ifs
    · exact ih _ _ ((ledger_loadStep c second _).trans h)
    · exact ih _ _ ((ledger_loadStep c first _).trans h)
    · exact h

theorem ledger_startCycle (c : Cfg) (v : Int) (fuel : Nat) :
    ∀ s : St, ledger c s = v → ledger c (startCycle c fuel s).state = v := by
  induction fuel with
  | zero =>
    intro s h
    exact h
  | succ fuel ih =>
    intro s h
    rw [startCycle]
    apply Run.bind_inv (fun t => ledger c t = v) _ _ ((ledger_collectNumbers c s).trans h)
    intro s1 h1
    dsimp only
    split_ifs
    · apply Run.bind_inv (fun t => ledger c t = v) _ _
        ((ledger_collectNumbers c _).trans (show ledger c (convert s1) = v from h1))
      intro s2 h2
      split_ifs
      · exact ih _ h2
      · apply Run.bind_inv (fun t => ledger c t = v)
        · exact ledger_cycleLoop c v _ _ _ _ _
            ((ledger_loadStep c _ _).trans (show ledger c (convert s2) = v from h2))
        · intro s3 h3
          exact h3
      · exact h2
    · exact h1

theorem ledger_keySwitch (c : Cfg) (v : Int) (pressed : Char) (s : St) (h : ledger c s = v) :
    ledger c (keySwitch c pressed s).state = v := by
  unfold keySwitch
  split_ifs
  · exact ledger_saveMovements c v _ h
  · exact ledger_loadMovements c v _ h
  · exact ledger_startCycle c v _ _ h
  · exact h
  · exact (ledger_loadStep c _ _).trans (show ledger c (convert s) = v from h)
  · exact h
  · exact h

theorem ledger_keypadInput (c : Cfg) (v : Int) (key : Char) (s : St) (h : ledger c s = v) :
    ledger c (keypadInput c key s).state = v := by
  unfold keypadInput
  split_ifs
  · exact ledger_keySwitch c v _ _ h
  · exact ledger_keySwitch c v _ _ h
  · exact h
  · exact h

theorem ledger_loop (c : Cfg) (v : Int) (p : Poll) (s : St) (h : ledger c s = v) :
    ledger c (loop c p.knobRead p.limitSwitchPin p.key s).state = v := by
  unfold loop
  simp only
  have h1 : ledger c { manualPoll c p.knobRead p.limitSwitchPin s with keyPressed := p.key }
      = v := (ledger_manualPoll c _ _ s).trans h
  split_ifs
  · exact ledger_keypadInput c v _ _ h1
  · exact h1

theorem ledger_polls (c : Cfg) (v : Int) (ps : List Poll) :
    ∀ s : St, ledger c s = v → ledger c (polls c ps s).state = v := by
  induction ps with
  | nil =>
    intro s h
    exact h
  | cons p ps ih =>
    intro s h
    rw [polls]
    exact Run.bind_inv (fun t => ledger c t = v) _ _ (ledger_loop c v p s h) ih


/-- C19. `CWturn`, `CCWturn` and a `loadStep` that is carried out each call `stepper.move`
once, with `stepsPerTurn` times the position before minus the position after; a `loadStep`
that is refused (after `#`, or above the soft limit) calls it not at all and leaves the
position. Over every run of rounds of `loop`, returned or blocked in a session, the sum of the
arguments of `stepper.move` grows by `stepsPerTurn` times the position at the start minus the
position at the end. -/
theorem moves_match_position (c : Cfg) (ps : List Poll) (s : St) :
    (CWturn c s).moved =
      s.moved ++ [c.stepsPerTurn * (s.countSteps - (CWturn c s).countSteps)] ∧
    (CCWturn c s).moved =
      s.moved ++ [c.stepsPerTurn * (s.countSteps - (CCWturn c s).countSteps)] ∧
    (∀ x : Int,
      (s.keyPressed ≠ '#' ∧ (x ≤ c.clickLimit ∨ c.softLimit = false) →
        (loadStep c x s).countSteps = x ∧
        (loadStep c x s).moved =
          s.moved ++ [c.stepsPerTurn * (s.countSteps - (loadStep c x s).countSteps)]) ∧
      (¬ (s.keyPressed ≠ '#' ∧ (x ≤ c.clickLimit ∨ c.softLimit = false)) →
        (loadStep c x s).countSteps = s.countSteps ∧ (loadStep c x s).moved = s.moved)) ∧
    (polls c ps s).state.moved.sum =
      s.moved.sum + c.stepsPerTurn * (s.countSteps - (polls c ps s).state.countSteps) := by
  refine ⟨?_, ?_, ?_, ?_⟩
  · show s.moved ++ [c.stepsPerTurn] = s.moved ++ [c.stepsPerTurn * (s.countSteps - (s.countSteps - 1))]
    congr 2
    ring
  · show s.moved ++ [c.stepsPerTurn * -1] =
      s.moved ++ [c.stepsPerTurn * (s.countSteps - (s.countSteps + 1))]
    congr 2
    ring
  · intro x
    constructor
    · intro h
      rw [loadStep_executed c x s h.1 h.2]
      exact ⟨rfl, rfl⟩
    · intro h
      unfold loadStep
      split_ifs with a b
      · exact ⟨rfl, rfl⟩
      · exact absurd ⟨a, b⟩ h
      · exact ⟨rfl, rfl⟩
  · have h := ledger_polls c (ledger c s) ps s rfl
    unfold ledger at h
    linarith

/-! ## Byte slots -/

/-- C20. A save session stores under a key at most `blockLimit` steps, typed or taken from the
position with `B`. Afterwards the slots of the block hold the step values modulo 256, in
order, and 164 in the slots left. A load session on that key, in any later state with the same
EEPROM contents: when the first slot holds 164 it reports no data and moves nowhere; otherwise
it does what a replay of the slot values other than 164 does, in slot order, so a step is
skipped exactly when its value modulo 256 is 164. -/
theorem slots_are_bytes (c : Cfg) (key : List Nat) (steps : List Entry) (rest : List Char)
    (s : St) (hkey : Digits key) (hvalid : ∀ e ∈ steps, e.Valid)
    (hlen : steps.length ≤ c.blockLimit.toNat) (hc : s.countkeyPressed = 0)
    (hn : s.numPressed.Codes) (hkeys : s.keys = saveSession c key steps ++ rest) :
    ∃ t, saveMovements c s = .ok t ∧
      slots t.eeprom (c.blockLimit * decimal key) c.blockLimit.toNat =
        steps.map (fun e => e.value s.countSteps % 256) ++
          List.replicate (c.blockLimit.toNat - steps.length) 164 ∧
      ∀ (u : St) (rest2 : List Char), u.eeprom = t.eeprom → u.countkeyPressed = 0 →
        u.numPressed.Codes → u.keys = entry key ++ rest2 →
        ((blockBytes s.countSteps steps c.blockLimit.toNat).head? = some 164 →
          loadMovements c u =
            .ok { entered u (lastKey key) (decimal key) rest2 with
              notes := u.notes ++ [Note.noSaveData] }) ∧
        ((blockBytes s.countSteps steps c.blockLimit.toNat).head? ≠ some 164 →
          loadMovements c u =
            replay c ((blockBytes s.countSteps steps c.blockLimit.toNat).filter
              (fun v => v ≠ 164)) (entered u (lastKey key) (decimal key) rest2)) := by
  obtain ⟨t, ht, -, hmem, -⟩ :=
    saveMovements_session c key steps rest s hkey hvalid hlen hc hn hkeys
  have hslots : slots t.eeprom (c.blockLimit * decimal key) c.blockLimit.toNat =
      blockBytes s.countSteps steps c.blockLimit.toNat := by
    rw [hmem]
    have h := slots_storeBytes (blockBytes s.countSteps steps c.blockLimit.toNat) s.eeprom
      (c.blockLimit * decimal key) (blockBytes_byte _ _ _)
    rw [blockBytes_length _ _ _ hlen] at h
    exact h
  refine ⟨t, ht, hslots, ?_⟩
  intro u rest2 hu huc hun hukeys
  have hrun := loadMovements_after_entry c key hkey rest2 u huc hun hukeys
  have hslots1 : slots (entered u (lastKey key) (decimal key) rest2).eeprom
      (c.blockLimit * decimal key) c.blockLimit.toNat =
      blockBytes s.countSteps steps c.blockLimit.toNat := by
    show slots u.eeprom _ _ = _
    rw [hu]
    exact hslots
  constructor
  · intro hhead
    cases hb : c.blockLimit.toNat with
    | zero =>
      rw [hb, slots] at hslots1
      rw [hb, ← hslots1] at hhead
      cases hhead
    | succ n =>
      rw [hb, slots] at hslots1
      rw [hb, ← hslots1] at hhead
      have hfirst : EEPROM.read (entered u (lastKey key) (decimal key) rest2)
          (c.blockLimit * decimal key) = 164 := by
        simpa using hhead
      rw [hrun, hb, loadLoop, if_pos hfirst]
      rfl
  · intro hhead
    cases hb : c.blockLimit.toNat with
    | zero =>
      rw [hb, slots] at hslots1
      rw [hrun, hb, ← hslots1]
      rfl
    | succ n =>
      have hfirst : EEPROM.read (entered u (lastKey key) (decimal key) rest2)
          (c.blockLimit * decimal key) ≠ 164 := by
        intro h
        apply hhead
        rw [← hslots1, hb, slots]
        simpa using h
      rw [hrun, loadLoop_replay c _ _ _ _ hfirst, hslots1, hb]

/-- Witness of C20: key 3 with the steps 300, current position (0) and 420: the slots hold
44, 0, 164, 164, 164 and the load moves to 44 and to 0. -/
theorem slots_are_bytes_witness :
    ∃ t, saveMovements userVariables saveWideSteps = .ok t ∧
      slots t.eeprom 15 5 = [44, 0, 164, 164, 164] ∧
      (loadMovements userVariables t).state.stepLog = [44, 0] := by
  obtain ⟨t, ht, hs, hload⟩ :=
    slots_are_bytes userVariables [3]
      [Entry.number [3, 0, 0], Entry.current, Entry.number [4, 2, 0]] ['3', '*']
      saveWideSteps ⟨by decide, by decide, by decide⟩
      (by
        intro e he
        simp only [List.mem_cons, List.mem_singleton, List.not_mem_nil, or_false] at he
        rcases he with rfl | rfl | rfl
        · exact ⟨by decide, by decide, by decide⟩
        · trivial
        · exact ⟨by decide, by decide, by decide⟩)
      (by decide) rfl ⟨Or.inl rfl, Or.inl rfl, Or.inl rfl⟩ rfl
  have hstate : t = (saveMovements userVariables saveWideSteps).state := by
    rw [ht]
    rfl
  refine ⟨t, ht, hs, ?_⟩
  rw [(hload t [] rfl (by rw [hstate]; decide)
    (by rw [hstate]; exact ⟨Or.inl (by decide), Or.inl (by decide), Or.inl (by decide)⟩)
    (by rw [hstate]; decide)).2 (by decide), hstate]
  decide

/-! ## Restart after a letter -/

theorem code_digitKey (d : Nat) (h : d < 10) : Code ((digitKey d).toNat : Int) := by
  rw [digitKey_toNat d h]
  right
  omega

theorem storeDigits_codes (ds : List Nat) :
    ∀ (a : Arr3) (i : Int), a.Codes → (∀ d ∈ ds, d < 10) → (storeDigits a i ds).Codes := by
  induction ds with
  | nil =>
    intro a i ha _
    exact ha
  | cons d ds ih =>
    intro a i ha hd
    exact ih _ _ (Arr3.set_codes a i _ ha (code_digitKey d (hd d (List.mem_cons_self _ _))))
      (fun x hx => hd x (List.mem_cons_of_mem _ hx))

theorem collectKeys_letter (save : Bool) (k : Char) (ks : List Char) (s : St)
    (hc : s.countkeyPressed < 3) (hs : s.comingFromSave = save) (hk : Resets save k) :
    collectKeys (k :: ks) s =
      collectKeys ks { s with
        keyPressed := k, keys := ks, notes := s.notes ++ [Note.mustBeNumber],
        countkeyPressed := 0 } := by
  rw [collectKeys]
  rcases hk with rfl | rfl | rfl | ⟨rfl, hf⟩
  · simp [hc]
  · simp [hc]
  · simp [hc]
  · rw [hf] at hs
    simp [hc, hs]

/-- One attempt given up in `collectNumbers`: up to two digits and a letter. The count is
back at 0, the digits are still in `numPressed`. -/
theorem collectKeys_abandon (ds : List Nat) (k : Char) (ks : List Char) (s : St)
    (hlen : ds.length ≤ 2) (hd : ∀ d ∈ ds, d < 10) (hc : s.countkeyPressed = 0)
    (hk : Resets s.comingFromSave k) :
    collectKeys (ds.map digitKey ++ k :: ks) s =
      collectKeys ks { s with
        keyPressed := k, keys := ks, notes := s.notes ++ [Note.mustBeNumber],
        countkeyPressed := 0, numPressed := storeDigits s.numPressed 0 ds } := by
  match ds, hlen, hd with
  | [], _, _ =>
    show collectKeys (k :: ks) s = _
    rw [collectKeys_letter s.comingFromSave k ks s (by omega) rfl hk]
    rfl
  | [d0], _, hd =>
    have hd0 : d0 < 10 := hd d0 (by simp)
    show collectKeys (digitKey d0 :: k :: ks) s = _
    rw [collectKeys_digit d0 hd0 _ _ (by omega), collectKeys_letter s.comingFromSave k ks _ (by simp [hc]) (by rfl) hk]
    simp [storeDigits, hc]
  | [d0, d1], _, hd =>
    have hd0 : d0 < 10 := hd d0 (by simp)
    have hd1 : d1 < 10 := hd d1 (by simp)
    show collectKeys (digitKey d0 :: digitKey d1 :: k :: ks) s = _
    rw [collectKeys_digit d0 hd0 _ _ (by omega), collectKeys_digit d1 hd1 _ _ (by simp [hc]),
      collectKeys_letter s.comingFromSave k ks _ (by simp [hc]) (by rfl) hk]
    simp [storeDigits, hc]
  | _ :: _ :: _ :: _, hlen, _ => simp at hlen

/-- Attempts given up in `collectNumbers` leave a state with the count at 0 and digits or
nothing in `numPressed`, in which the collection goes on with the next key. -/
theorem collectKeys_restart (more : List (List Nat × Char)) :
    ∀ (ks : List Char) (s : St), s.countkeyPressed = 0 → s.numPressed.Codes →
      (∀ a ∈ more, a.1.length ≤ 2 ∧ (∀ d ∈ a.1, d < 10) ∧ Resets s.comingFromSave a.2) →
      s.keys = abandoned more ++ ks →
      ∃ u, collectKeys (abandoned more ++ ks) s = collectKeys ks u ∧ u.keys = ks ∧
        u.countkeyPressed = 0 ∧ u.numPressed.Codes := by
  induction more with
  | nil =>
    intro ks s hc hn _ hkeys
    exact ⟨s, rfl, hkeys, hc, hn⟩
  | cons a more ih =>
    intro ks s hc hn hall hkeys
    obtain ⟨ds, k⟩ := a
    obtain ⟨hlen, hd, hk⟩ := hall (ds, k) (List.mem_cons_self _ _)
    have hstep := collectKeys_abandon ds k (abandoned more ++ ks) s hlen hd hc hk
    obtain ⟨u, hu, hukeys, huc, hun⟩ := ih ks
      { s with
        keyPressed := k, keys := abandoned more ++ ks,
        notes := s.notes ++ [Note.mustBeNumber],
        countkeyPressed := 0, numPressed := storeDigits s.numPressed 0 ds }
      rfl (storeDigits_codes ds _ _ hn hd)
      (fun b hb => hall b (List.mem_cons_of_mem _ hb)) rfl
    refine ⟨u, ?_, hukeys, huc, hun⟩
    show collectKeys (ds.map digitKey ++ k :: abandoned more ++ ks) s = _
    rw [List.append_assoc, List.cons_append, hstep]
    exact hu


theorem keypadInput_digit (c : Cfg) (d : Nat) (h : d < 10) (s : St)
    (hc : s.countkeyPressed < 3) :
    keypadInput c (digitKey d) s =
      .ok { s with
        numPressed := s.numPressed.set s.countkeyPressed (digitKey d).toNat,
        countkeyPressed := s.countkeyPressed + 1 } := by
  obtain ⟨n1, n2, n3, n4, n5, n6⟩ := digitKey_ne d h
  unfold keypadInput
  simp [hc, n1, n2, n3, n4, n5, n6]

theorem keySwitch_null (c : Cfg) (s : St) : keySwitch c NULL s = .ok s := by
  unfold keySwitch
  rw [if_neg (by decide), if_neg (by decide), if_neg (by decide), if_neg (by decide),
    if_neg (by decide)]

theorem keypadInput_letter (c : Cfg) (k : Char) (s : St)
    (hk : k = 'A' ∨ k = 'B' ∨ k = 'C' ∨ k = 'D') (hc : 1 ≤ s.countkeyPressed) :
    keypadInput c k s =
      .ok { s with notes := s.notes ++ [Note.mustBeNumber], countkeyPressed := 0 } := by
  have h1 : k = 'A' ∨ k = 'B' ∨ k = 'C' ∨ k = 'D' ∨ k = '*' ∨ k = '#' := by
    rcases hk with h | h | h | h
    · exact Or.inl h
    · exact Or.inr (Or.inl h)
    · exact Or.inr (Or.inr (Or.inl h))
    · exact Or.inr (Or.inr (Or.inr (Or.inl h)))
  have h2 : s.countkeyPressed ≥ 1 ∧ k ≠ '#' ∧ k ≠ '*' := by
    rcases hk with rfl | rfl | rfl | rfl <;> exact ⟨hc, by decide, by decide⟩
  unfold keypadInput
  rw [if_pos h1, if_pos h2, keySwitch_null]

theorem keypadInput_submit (c : Cfg) (s : St) (hc : 1 ≤ s.countkeyPressed) :
    keypadInput c '*' s = .ok (loadStep c (convert s).passedInput (convert s)) := by
  have h2 : ¬ (s.countkeyPressed ≥ 1 ∧ ('*' : Char) ≠ '#' ∧ ('*' : Char) ≠ '*') := by
    intro h
    exact h.2.2 rfl
  unfold keypadInput
  rw [if_pos (by decide), if_neg h2]
  unfold keySwitch
  rw [if_neg (by decide), if_neg (by decide), if_neg (by decide), if_neg (by decide),
    if_pos rfl, if_pos (by omega)]

theorem Untouched.refl (s : St) : Untouched s s :=
  ⟨rfl, rfl, rfl, rfl, rfl, rfl, rfl, rfl⟩

theorem Untouched.trans (s t u : St) (h1 : Untouched s t) (h2 : Untouched t u) :
    Untouched s u := by
  obtain ⟨a1, a2, a3, a4, a5, a6, a7, a8⟩ := h1
  obtain ⟨b1, b2, b3, b4, b5, b6, b7, b8⟩ := h2
  exact ⟨b1.trans a1, b2.trans a2, b3.trans a3, b4.trans a4, b5.trans a5, b6.trans a6,
    b7.trans a7, b8.trans a8⟩

theorem pressKeys_digit (c : Cfg) (d : Nat) (h : d < 10) (ks : List Char) (s : St)
    (hc : s.countkeyPressed < 3) :
    pressKeys c (digitKey d :: ks) s = pressKeys c ks (pressDigit d s) := by
  rw [pressKeys, keypadInput_digit c d h _ (by exact hc)]
  rfl

/-- Digits typed in the main menu with no digit pending are stored from index 0 on. -/
theorem pressKeys_digits (c : Cfg) (ds : List Nat) (hds : Digits ds) (ks : List Char) (s : St)
    (hc : s.countkeyPressed = 0) :
    ∃ u, pressKeys c (ds.map digitKey ++ ks) s = pressKeys c ks u ∧
      u.numPressed = storeDigits s.numPressed 0 ds ∧ u.countkeyPressed = ds.length ∧
      Untouched s u := by
  obtain ⟨h1, h3, hd⟩ := hds
  match ds, h1, h3, hd with
  | [d0], _, _, hd =>
    have hd0 : d0 < 10 := hd d0 (by simp)
    refine ⟨pressDigit d0 s, ?_, ?_, ?_, Untouched.refl s⟩
    · show pressKeys c (digitKey d0 :: ks) s = _
      rw [pressKeys_digit c d0 hd0 _ _ (by omega)]
    · simp [pressDigit, storeDigits, hc]
    · simp [pressDigit, hc]
  | [d0, d1], _, _, hd =>
    have hd0 : d0 < 10 := hd d0 (by simp)
    have hd1 : d1 < 10 := hd d1 (by simp)
    refine ⟨pressDigit d1 (pressDigit d0 s), ?_, ?_, ?_, Untouched.refl s⟩
    · show pressKeys c (digitKey d0 :: digitKey d1 :: ks) s = _
      rw [pressKeys_digit c d0 hd0 _ _ (by omega),
        pressKeys_digit c d1 hd1 _ _ (by simp [pressDigit, hc])]
    · simp [pressDigit, storeDigits, hc]
    · simp [pressDigit, hc]
  | [d0, d1, d2], _, _, hd =>
    have hd0 : d0 < 10 := hd d0 (by simp)
    have hd1 : d1 < 10 := hd d1 (by simp)
    have hd2 : d2 < 10 := hd d2 (by simp)
    refine ⟨pressDigit d2 (pressDigit d1 (pressDigit d0 s)), ?_, ?_, ?_, Untouched.refl s⟩
    · show pressKeys c (digitKey d0 :: digitKey d1 :: digitKey d2 :: ks) s = _
      rw [pressKeys_digit c d0 hd0 _ _ (by omega),
        pressKeys_digit c d1 hd1 _ _ (by simp [pressDigit, hc]),
        pressKeys_digit c d2 hd2 _ _ (by simp [pressDigit, hc])]
    · simp [pressDigit, storeDigits, hc]
    · simp [pressDigit, hc]
  | [], h1, _, _ => simp at h1
  | _ :: _ :: _ :: _ :: _, _, h3, _ => simp at h3

/-- One attempt given up in the main menu: digits and a letter. No command is run, the count
is back at 0 and the digits are still in `numPressed`. -/
theorem pressKeys_abandon (c : Cfg) (ds : List Nat) (hds : Digits ds) (k : Char)
    (hk : k = 'A' ∨ k = 'B' ∨ k = 'C' ∨ k = 'D') (ks : List Char) (s : St)
    (hc : s.countkeyPressed = 0) (hn : s.numPressed.Codes) :
    ∃ u, pressKeys c (ds.map digitKey ++ k :: ks) s = pressKeys c ks u ∧
      u.countkeyPressed = 0 ∧ u.numPressed.Codes ∧ Untouched s u := by
  obtain ⟨u, hu, hnum, hcount, hframe⟩ := pressKeys_digits c ds hds (k :: ks) s hc
  refine ⟨{ u with
    keyPressed := k, notes := u.notes ++ [Note.mustBeNumber], countkeyPressed := 0 },
    ?_, rfl, ?_, hframe⟩
  · rw [hu, pressKeys,
      keypadInput_letter c k _ hk (by show 1 ≤ u.countkeyPressed; rw [hcount]; have := hds.1; omega)]
    rfl
  · show u.numPressed.Codes
    rw [hnum]
    exact storeDigits_codes ds _ _ hn hds.2.2

theorem pressKeys_restart (c : Cfg) (more : List (List Nat × Char)) :
    ∀ (ks : List Char) (s : St), s.countkeyPressed = 0 → s.numPressed.Codes →
      (∀ a ∈ more, Digits a.1 ∧ (a.2 = 'A' ∨ a.2 = 'B' ∨ a.2 = 'C' ∨ a.2 = 'D')) →
      ∃ u, pressKeys c (abandoned more ++ ks) s = pressKeys c ks u ∧
        u.countkeyPressed = 0 ∧ u.numPressed.Codes ∧ Untouched s u := by
  induction more with
  | nil =>
    intro ks s hc hn _
    exact ⟨s, rfl, hc, hn, Untouched.refl s⟩
  | cons a more ih =>
    intro ks s hc hn hall
    obtain ⟨ds, k⟩ := a
    obtain ⟨hds, hk⟩ := hall (ds, k) (List.mem_cons_self _ _)
    obtain ⟨u, hu, huc, hun, hframe⟩ :=
      pressKeys_abandon c ds hds k hk (abandoned more ++ ks) s hc hn
    obtain ⟨v, hv, hvc, hvn, hframe2⟩ := ih ks u huc hun
      (fun b hb => hall b (List.mem_cons_of_mem _ hb))
    refine ⟨v, ?_, hvc, hvn, Untouched.trans s u v hframe hframe2⟩
    show pressKeys c (ds.map digitKey ++ k :: abandoned more ++ ks) s = _
    rw [List.append_assoc, List.cons_append, hu]
    exact hv

/-- A number typed and submitted with `*` in the main menu, with no digit pending. -/
theorem pressKeys_submit (c : Cfg) (ds : List Nat) (hds : Digits ds) (s : St)
    (hc : s.countkeyPressed = 0) (hn : s.numPressed.Codes) :
    ∃ s1, pressKeys c (ds.map digitKey ++ ['*']) s = .ok (loadStep c (decimal ds) s1) ∧
      s1.keyPressed = '*' ∧ s1.passedInput = decimal ds ∧ s1.countkeyPressed = 0 ∧
      Untouched s s1 := by
  obtain ⟨u, hu, hnum, hcount, hframe⟩ := pressKeys_digits c ds hds ['*'] s hc
  have hval : (convert { u with keyPressed := '*' }).passedInput = decimal ds :=
    convert_stored _ s.numPressed ds hn hds.1 hds.2.1 hds.2.2 hnum hcount
  refine ⟨convert { u with keyPressed := '*' }, ?_, rfl, hval, rfl, hframe⟩
  rw [hu, pressKeys,
    keypadInput_submit c _ (by show 1 ≤ u.countkeyPressed; rw [hcount]; have := hds.1; omega),
    hval]
  rfl


/-- The value that `convert` computes for one, two or three pending digits depends only on the
first `countkeyPressed` elements of `numPressed`, when every element is empty or a digit. -/
theorem convert_prefix (t u : St) (ht : t.numPressed.Codes) (hu : u.numPressed.Codes)
    (hcount : t.countkeyPressed = u.countkeyPressed)
    (hsame : (t.countkeyPressed = 1 ∧ t.numPressed.a0 = u.numPressed.a0) ∨
      (t.countkeyPressed = 2 ∧ t.numPressed.a0 = u.numPressed.a0 ∧
        t.numPressed.a1 = u.numPressed.a1) ∨
      (t.countkeyPressed = 3 ∧ t.numPressed = u.numPressed)) :
    (convert t).passedInput = (convert u).passedInput := by
  obtain ⟨t0, t1, t2⟩ := ht
  obtain ⟨u0, u1, u2⟩ := hu
  have bt0 := toDigit_code _ t0
  have bt1 := toDigit_code _ t1
  have bt2 := toDigit_code _ t2
  have bu0 := toDigit_code _ u0
  have bu1 := toDigit_code _ u1
  have bu2 := toDigit_code _ u2
  rw [convert_passedInput, convert_passedInput, ← hcount]
  rcases hsame with ⟨h1, e0⟩ | ⟨h2, e0, e1⟩ | ⟨h3, e⟩
  · rw [if_pos h1, if_pos h1, ← e0, Int.tdiv_eq_ediv (by omega) (by omega),
      Int.tdiv_eq_ediv (by omega) (by omega)]
    omega
  · have hne : ¬ t.countkeyPressed = 1 := by omega
    rw [if_neg hne, if_pos h2, if_neg hne, if_pos h2, ← e0, ← e1,
      Int.tdiv_eq_ediv (by omega) (by omega), Int.tdiv_eq_ediv (by omega) (by omega)]
    omega
  · rw [e]

/-- C17, refuted as stated. In a save session `collectNumbers` ends at the letter `B` and the
count is not reset. At a step prompt, `1`, `B` saves the position and the entry `2`, `*` that
follows is saved as 12. At the key prompt, `1`, `B` selects key 1, from the digit typed before
the letter. -/
theorem letter_in_save_session_counterexample :
    (saveMovements userVariables saveDigitThenCurrent).state.writes =
      [(15, 0), (16, 12), (17, 164), (18, 164), (19, 164)] ∧
    (saveMovements userVariables saveKeyThenCurrent).state.writes =
      [(5, 7), (6, 164), (7, 164), (8, 164), (9, 164)] := by
  decide

/-- C17, amended. Attempts given up are digits followed by a letter. In `collectNumbers`, when
every such letter is `A`, `C`, `D`, or `B` outside a save session, the collection returns
after the entry that follows and `convert` yields the base-10 value of the digits of that
entry alone. In the main menu, after attempts given up with any letter, the digits typed next
and `*` run `loadStep` with the value of those digits alone, and nothing was moved or written
before. The value of `convert` for one, two or three pending digits depends only on the first
`countkeyPressed` elements of `numPressed`. -/
theorem restart_discards_digits (c : Cfg) (s : St) (more : List (List Nat × Char))
    (ds : List Nat) (rest : List Char) (hc : s.countkeyPressed = 0) (hn : s.numPressed.Codes)
    (hds : Digits ds) :
    ((∀ a ∈ more, a.1.length ≤ 2 ∧ (∀ d ∈ a.1, d < 10) ∧ Resets s.comingFromSave a.2) →
      s.keys = abandoned more ++ (entry ds ++ rest) →
      ∃ s1, collectNumbers s = .ok s1 ∧ s1.keys = rest ∧
        (convert s1).passedInput = decimal ds) ∧
    ((∀ a ∈ more, Digits a.1 ∧ (a.2 = 'A' ∨ a.2 = 'B' ∨ a.2 = 'C' ∨ a.2 = 'D')) →
      ∃ s1, pressKeys c (abandoned more ++ (ds.map digitKey ++ ['*'])) s =
          .ok (loadStep c (decimal ds) s1) ∧
        s1.keyPressed = '*' ∧ s1.countkeyPressed = 0 ∧ Untouched s s1) ∧
    (∀ t u : St, t.numPressed.Codes → u.numPressed.Codes →
      t.countkeyPressed = u.countkeyPressed →
      ((t.countkeyPressed = 1 ∧ t.numPressed.a0 = u.numPressed.a0) ∨
        (t.countkeyPressed = 2 ∧ t.numPressed.a0 = u.numPressed.a0 ∧
          t.numPressed.a1 = u.numPressed.a1) ∨
        (t.countkeyPressed = 3 ∧ t.numPressed = u.numPressed)) →
      (convert t).passedInput = (convert u).passedInput) := by
  refine ⟨?_, ?_, convert_prefix⟩
  · intro hall hkeys
    obtain ⟨u, hu, hukeys, huc, hun⟩ :=
      collectKeys_restart more (entry ds ++ rest) s hc hn hall hkeys
    obtain ⟨s1, hs1, -, hconv⟩ := collect_convert ds hds rest u huc hun hukeys
    refine ⟨s1, ?_, ?_, ?_⟩
    · unfold collectNumbers
      rw [hkeys, hu]
      unfold collectNumbers at hs1
      rw [hukeys] at hs1
      exact hs1
    · have h := congrArg St.keys hconv
      exact h
    · rw [hconv]
      rfl
  · intro hall
    obtain ⟨u, hu, huc, hun, hframe⟩ :=
      pressKeys_restart c more (ds.map digitKey ++ ['*']) s hc hn hall
    obtain ⟨s1, hs1, hk, -, hcount, hframe2⟩ := pressKeys_submit c ds hds u huc hun
    exact ⟨s1, hu.trans hs1, hk, hcount, Untouched.trans s u s1 hframe hframe2⟩

/-- Witness of C17: `1`, `2`, `A`, then `5`, `*`: the value is 5. -/
theorem restart_discards_digits_witness :
    ∃ s1, collectNumbers retyped = .ok s1 ∧ (convert s1).passedInput = 5 := by
  obtain ⟨s1, hs1, -, hv⟩ :=
    (restart_discards_digits userVariables retyped [([1, 2], 'A')] [5] [] rfl
      ⟨Or.inl rfl, Or.inl rfl, Or.inl rfl⟩ ⟨by decide, by decide, by decide⟩).1
      (by
        intro a ha
        simp only [List.mem_singleton] at ha
        subst ha
        exact ⟨by decide, by decide, Or.inl rfl⟩)
      rfl
  exact ⟨s1, hs1, hv⟩

end CNC
